import Mathlib

/-!
# crypto-tray-ticker: selection and refresh engine

A shallow embedding of `app.go` and `utils.go`.

* `*Token` values are modelled by `Token` records; the list elements of
  `selected` are pointers in the source, and two tokens with the same `ID` may
  still differ in their other fields.  The watch list and the click batches
  are taken to hold no nil pointer; the catalog that `getTokens` returns may
  hold some.
* `json.Number` is a Go string type and is modelled by `String`.
* A Go slice is modelled by its backing array together with its length
  (`Slice`), because the toggle loop of `menuLoop` deletes in place while it
  ranges over the original slice header.
* A run-time panic is the result `none`.
-/

namespace CryptoTray

/-! ## Data model (`app.go:14-24`) -/

def binanceSource : String := "binance"

def coincapSource : String := "coincap"

def appName : String := "crypto-tray-ticker"

/-- The `Token` struct; `PriceUsd` and `ChangePercent24Hr` are `json.Number`,
that is the decimal text as it was received. -/
structure Token where
  ID : String
  Symbol : String
  Name : String
  PriceUsd : String
  ChangePercent24Hr : String
  Comment : String
deriving DecidableEq, Repr

/-! ## The toggle step of `menuLoop` (`app.go:154-165`) -/

/-- A slice of tokens: the backing array from the slice's first element on, and
the slice's length.  Only the first `len` entries are visible through the
slice; entries behind them stay in the array and are what a `range` over an
older header still reads. -/
structure Slice where
  arr : List Token
  len : Nat
deriving DecidableEq, Repr

/-- The elements visible through the slice. -/
def Slice.toList (s : Slice) : List Token := s.arr.take s.len

/-- The statement `selected = append(selected[:i], selected[i+1:]...)`.
`selected[i+1:]` panics unless `i+1 ≤ len(selected)`; otherwise the tail
`[i+1, len)` is moved one place down inside the same backing array (the
capacity always suffices) and the length drops by one.  The entry at
`len-1` keeps its old value. -/
def deleteAt (s : Slice) (i : Nat) : Option Slice :=
  if i + 1 ≤ s.len ∧ s.len ≤ s.arr.length then
    some ⟨s.arr.take i ++ (s.arr.drop (i + 1)).take (s.len - (i + 1)) ++ s.arr.drop (s.len - 1),
          s.len - 1⟩
  else
    none

/-- The inner loop `for i, v := range selected { ... }` with `k` iterations
left, at index `i`.  The range expression was evaluated once, so `v` is read
from the backing array at index `i` whatever the current length is. -/
def rangeSelected (clicked : Token) : Nat → Nat → Slice → Bool → Option (Slice × Bool)
  | 0, _, s, found => some (s, found)
  | k + 1, i, s, found =>
    match s.arr[i]? with
    | none => none
    | some v =>
      if v.ID = clicked.ID then
        match deleteAt s i with
        | none => none
        | some s' => rangeSelected clicked k (i + 1) s' true
      else
        rangeSelected clicked k (i + 1) s found

/-- One pass of the body of `for _, clickedTokenID := range clickedTokens`:
the inner loop over `selected`, then the append when nothing was found.  The
slice is given by its visible elements: the loop reads and writes no cell of
the backing array behind the length it starts with (`toggleShared_visible`
shows the same result on a slice with further cells). -/
def toggle (selected : List Token) (clicked : Token) : Option (List Token) :=
  match rangeSelected clicked selected.length 0 ⟨selected, selected.length⟩ false with
  | none => none
  | some (s, found) =>
    if !found then some (s.toList ++ [clicked]) else some s.toList

/-- The loop over one received batch `clickedTokens`. -/
def toggleAll : List Token → List Token → Option (List Token)
  | selected, [] => some selected
  | selected, c :: cs =>
    match toggle selected c with
    | none => none
    | some selected' => toggleAll selected' cs

/-- What the event goroutine of `menuLoop` receives. -/
inductive Event where
  | clicked (clickedTokens : List Token)
  | source (name : String)
deriving DecidableEq, Repr

/-- The variables `selected` and `source` of `menuLoop`. -/
structure LoopState where
  selected : List Token
  source : String
deriving DecidableEq, Repr

/-- The state `menuLoop` starts from: `make([]*Token, 0)` and `var source string`. -/
def LoopState.init : LoopState := ⟨[], ""⟩

/-- The effect of one `select` case on `selected` and `source`. -/
def handleEvent (st : LoopState) : Event → Option LoopState
  | .clicked cs =>
    match toggleAll st.selected cs with
    | none => none
    | some sel => some { st with selected := sel }
  | .source name => some { st with source := name }

/-- The event goroutine over a sequence of received events. -/
def runEvents : LoopState → List Event → Option LoopState
  | st, [] => some st
  | st, e :: es =>
    match handleEvent st e with
    | none => none
    | some st' => runEvents st' es

/-! ## HTTP layer (`utils.go:37-66`)

The network and `encoding/json` are outside the repository.  A request is
answered by the environment; the answer may differ from one request to the
next, so the environment is indexed by the number of the request.  The JSON
decoder enters as one function per target struct of `Decode(&result)`. -/

/-- The fields of `*http.Response` the program reads. -/
structure Response (β : Type) where
  StatusCode : Nat
  Body : β

/-- The `Result` struct of `getBinanceToken`. -/
structure AvgPriceResult where
  Price : String
  Mins : Int
deriving DecidableEq, Repr

/-- The `Result` struct of `getCoinCapToken`; `Data` is a pointer and may be nil. -/
structure AssetResult where
  Data : Option Token
  Timestamp : Int
deriving DecidableEq, Repr

/-- The `Result` struct of `getTokens`; `Data` is a slice of pointers, and a nil slice
is the empty list. -/
structure AssetsResult where
  Data : List (Option Token)
  Timestamp : Int
deriving DecidableEq, Repr

/-- What the program calls from outside the repository.
* `newRequest n method url` is `http.NewRequest`: `some msg` when it returns an error;
* `roundTrip n method url` is `client.Do`;
* `decode...` is `json.NewDecoder(r.Body).Decode(&result)` on a zero `result`,
  `none` when it returns an error. -/
structure Env (β : Type) where
  newRequest : Nat → String → String → Option String
  roundTrip : Nat → String → String → Except String (Response β)
  decodeAvgPrice : β → Option AvgPriceResult
  decodeAsset : β → Option AssetResult
  decodeAssets : β → Option AssetsResult

def StatusOK : Nat := 200

def StatusBadRequest : Nat := 400

/-- The function `makeRequest` for the call number `n`.  The request body and the
headers do not reach the result: every caller passes `nil` for both. -/
def makeRequest {β : Type} (env : Env β) (n : Nat) (requestMethod requestURL : String) :
    Except String (Response β) :=
  match env.newRequest n requestMethod requestURL with
  | some err => .error err
  | none =>
    match env.roundTrip n requestMethod requestURL with
    | .error err => .error err
    | .ok response => .ok response

/-! ## Price and catalog fetches (`app.go:226-350`)

A Go result `(*Token, error)` is the pair of an optional token and an optional
error text; both can be present.  `getBinanceToken` writes through the pointer
it was given and returns that pointer: the returned token is the given one with
the two fields overwritten. -/

/-- The method `getCoinCapToken`. -/
def getCoinCapToken {β : Type} (env : Env β) (n : Nat) (token : Token) :
    Option Token × Option String :=
  let url := "https://api.coincap.io/v2/assets/" ++ token.ID
  match makeRequest env n "GET" url with
  | .error _ => (none, some "connection problem")
  | .ok r =>
    if r.StatusCode ≠ StatusOK then
      (none, some "server is not available")
    else
      match env.decodeAsset r.Body with
      | none => (none, some "parsing problem")
      | some result => (result.Data, none)

/-- The method `getBinanceToken`. -/
def getBinanceToken {β : Type} (env : Env β) (n : Nat) (token : Token) (currency : String) :
    Option Token × Option String :=
  let url := "https://api.binance.com/api/v3/avgPrice?symbol=" ++ token.Symbol ++ currency
  match makeRequest env n "GET" url with
  | .error _ => (none, some "connection problem")
  | .ok r =>
    if r.StatusCode = StatusBadRequest then
      (some token, some "token not found")
    else if r.StatusCode ≠ StatusOK then
      (none, some "server is not available")
    else
      match env.decodeAvgPrice r.Body with
      | none => (none, some "parsing problem")
      | some result =>
        (some { token with PriceUsd := result.Price, ChangePercent24Hr := "" }, none)

/-- The method `getToken`: the `switch` on `source`. -/
def getToken {β : Type} (env : Env β) (n : Nat) (token : Token) (source : String) :
    Option Token × Option String :=
  if source = binanceSource then
    getBinanceToken env n token "USDT"
  else if source = coincapSource then
    getCoinCapToken env n token
  else
    getCoinCapToken env n token

/-- The method `getTokens`; a nil slice is the empty list. -/
def getTokens {β : Type} (env : Env β) (tokensLimit : Int) (n : Nat) :
    List (Option Token) × Option String :=
  let url := "https://api.coincap.io/v2/assets?limit=" ++ toString tokensLimit
  match makeRequest env n "GET" url with
  | .error _ => ([], some "connection problem")
  | .ok r =>
    if r.StatusCode ≠ StatusOK then
      ([], some "server is not available")
    else
      match env.decodeAssets r.Body with
      | none => ([], some "parsing problem")
      | some result => (result.Data, none)

/-! ## Startup (`app.go:61-98`) -/

/-- What `loadTokensForMenu` returns, and the texts it passed to `systray.SetTitle`. -/
structure LoadResult where
  tokens : List (Option Token)
  err : Option String
  titles : List String
deriving DecidableEq, Repr

/-- The loop of `loadTokensForMenu` with `k` attempts left, at attempt `i`.
`outerErr` is the function-level `var err error`.  Inside the loop
`tokens, err := a.getTokens()` declares a new `err`, so the function-level
variable is never assigned; it is what the final `return nil, err` returns. -/
def loadTokensLoop (attempt : Nat → List (Option Token) × Option String) (outerErr : Option String) :
    Nat → Nat → List String → LoadResult
  | 0, _, titles => ⟨[], outerErr, titles⟩
  | k + 1, i, titles =>
    match attempt i with
    | (tokens, none) => ⟨tokens, none, titles⟩
    | (_, some err) =>
      loadTokensLoop attempt outerErr k (i + 1) (titles ++ [appName ++ ": " ++ err])

/-- The method `loadTokensForMenu`, over the outcomes of its calls of `getTokens`. -/
def loadTokensForMenu (attempt : Nat → List (Option Token) × Option String) : LoadResult :=
  loadTokensLoop attempt none 10 0 []

/-- How `onReady` goes on after `loadTokensForMenu`. -/
inductive Startup where
  | panicked (err : String)
  | menuCreated (tokens : List (Option Token))
deriving DecidableEq, Repr

/-- The method `onReady` up to the call of `createMenu`. -/
def onReady (attempt : Nat → List (Option Token) × Option String) : Startup :=
  let r := loadTokensForMenu attempt
  match r.err with
  | some err => .panicked err
  | none => .menuCreated r.tokens

/-! ## Rendering (`app.go:185-224`)

`strconv` and `fmt` are outside the repository; `updateTray` reaches them
through `json.Number.Float64` (error dropped), the verbs `%.3f` and `%.2f`, and
the comparison `percent != 0`. -/

/-- The float64 operations `updateTray` uses, over a type `F` of float64 values. -/
structure NumLib (F : Type) where
  Float64 : String → F
  fmtFixed : Nat → F → String
  nonZero : F → Bool

/-- The loop `for _, token := range selected` of `updateTray`; `fetch i token` is the
result of the call `a.getToken(token, source)` made for the element at index `i`. -/
def updateTrayLoop {F : Type} (lib : NumLib F) (fetch : Nat → Token → Option Token × Option String) :
    Nat → List Token → String → String
  | _, [], trayTitle => trayTitle
  | i, token :: rest, trayTitle =>
    match fetch i token with
    | (_, some err) =>
      updateTrayLoop lib fetch (i + 1) rest (trayTitle ++ (token.Symbol ++ " - " ++ err ++ " "))
    | (some tokenUpdated, none) =>
      let price := lib.Float64 tokenUpdated.PriceUsd
      let trayTitle1 := trayTitle ++ (tokenUpdated.Symbol ++ " - " ++ lib.fmtFixed 3 price ++ "$ ")
      let percent := lib.Float64 tokenUpdated.ChangePercent24Hr
      let trayTitle2 :=
        if lib.nonZero percent then trayTitle1 ++ ("[" ++ lib.fmtFixed 2 percent ++ "%]  ")
        else trayTitle1
      updateTrayLoop lib fetch (i + 1) rest trayTitle2
    | (none, none) => updateTrayLoop lib fetch (i + 1) rest trayTitle

/-- The method `updateTray`: the texts passed to `systray.SetTitle`, in order. -/
def updateTray {F : Type} (lib : NumLib F) (fetch : Nat → Token → Option Token × Option String)
    (blinkOnUpdate : Bool) (selected : List Token) (source : String) : List String :=
  let trayTitle := if source ≠ "" then source ++ ": " else coincapSource ++ ": "
  let trayTitle :=
    if selected.length > 0 then updateTrayLoop lib fetch 0 selected trayTitle
    else trayTitle ++ "select coin"
  (if blinkOnUpdate then [""] else []) ++ [trayTitle]

/-- The method `updateTray` with its calls of `getToken` answered by the environment,
the first of them being request number `n`. -/
def updateTrayEnv {β F : Type} (env : Env β) (lib : NumLib F) (n : Nat) (blinkOnUpdate : Bool)
    (selected : List Token) (source : String) : List String :=
  updateTray lib (fun i token => getToken env (n + i) token source) blinkOnUpdate selected source

/-! ## float64 on decimal texts

An instance of `NumLib` for decimal texts.  A decimal text (sign, digits with
an optional point, optional exponent: the JSON number literals are of this
form) is read exactly and rounded to the nearest binary64 value, ties to even,
subnormals and overflow included, which is what `strconv.ParseFloat(s, 64)`
returns for it; the verb `%.<prec>f` prints the exact binary value rounded half
to even at `prec` decimals.  The other texts `ParseFloat` accepts (hexadecimal,
`inf`, `nan`, digit separators) are not read here and count as syntax errors;
the claims below use the instance on decimal texts and on the empty text only. -/

/-- A binary64 value: `fin neg m e` is `(-1)^neg * m * 2^e`. -/
inductive F64 where
  | fin (neg : Bool) (m : Nat) (e : Int)
  | inf (neg : Bool)
  | nan
deriving DecidableEq, Repr

/-- Number of binary digits of `n`, by halving (`fuel` bounds the steps). -/
def bitLenAux : Nat → Nat → Nat
  | 0, _ => 0
  | fuel + 1, n => if n = 0 then 0 else bitLenAux fuel (n / 2) + 1

def bitLen (n : Nat) : Nat := bitLenAux n n

/-- Nearest integer to `num / den`, ties to even. -/
def roundHalfEven (num den : Nat) : Nat :=
  let q := num / den
  let r := num % den
  if 2 * r < den then q
  else if den < 2 * r then q + 1
  else if q % 2 = 0 then q else q + 1

/-- The integer `b` with `2^b ≤ num / den < 2^(b+1)`, for `num, den > 0`. -/
def floorLog2 (num den : Nat) : Int :=
  let bn := bitLen num
  let bd := bitLen den
  if bd ≤ bn then
    if den * 2 ^ (bn - bd) ≤ num then (bn - bd : Nat) else ((bn - bd : Nat) : Int) - 1
  else
    if den ≤ num * 2 ^ (bd - bn) then -((bd - bn : Nat) : Int) else -((bd - bn : Nat) : Int) - 1

/-- Rounding of the positive rational `num / den` to binary64. -/
def toBinary64 (neg : Bool) (num den : Nat) : F64 :=
  if num = 0 then .fin neg 0 0
  else
    let e : Int := max (floorLog2 num den - 52) (-1074)
    let m := if 0 ≤ e then roundHalfEven num (den * 2 ^ e.toNat)
             else roundHalfEven (num * 2 ^ (-e).toNat) den
    if 1024 < (bitLen m : Int) + e then .inf neg else .fin neg m e

/-- Reads a run of decimal digits: the value accumulated, the digits read, the rest. -/
def readDigits : List Char → Nat → Nat → Nat × Nat × List Char
  | [], acc, cnt => (acc, cnt, [])
  | c :: cs, acc, cnt =>
    if c.isDigit then readDigits cs (acc * 10 + (c.toNat - 48)) (cnt + 1)
    else (acc, cnt, c :: cs)

/-- Reads an optional sign. -/
def readSign : List Char → Bool × List Char
  | '-' :: cs => (true, cs)
  | '+' :: cs => (false, cs)
  | cs => (false, cs)

/-- Reads the exponent part: `none` on a syntax error. -/
def readExponent : List Char → Option Int
  | [] => some 0
  | c :: cs =>
    if c = 'e' ∨ c = 'E' then
      match readSign cs with
      | (eneg, cs1) =>
        match readDigits cs1 0 0 with
        | (ev, cnt, rest) =>
          if cnt = 0 ∨ rest ≠ [] then none
          else some (if eneg then -(ev : Int) else (ev : Int))
    else none

/-- Reads a decimal text: sign, digits with an optional point, optional exponent.
The result `(neg, mant, exp10)` stands for `(-1)^neg * mant * 10^exp10`. -/
def parseDecimal (s : List Char) : Option (Bool × Nat × Int) :=
  match readSign s with
  | (neg, s1) =>
    match readDigits s1 0 0 with
    | (ip, nI, s2) =>
      match (match s2 with
             | '.' :: s3 => readDigits s3 ip 0
             | _ => (ip, 0, s2)) with
      | (mant, nF, s4) =>
        if nI + nF = 0 then none
        else
          match readExponent s4 with
          | none => none
          | some ex => some (neg, mant, ex - (nF : Int))

/-- The method `Float64` of `json.Number` with the error dropped: a text that does not
parse gives 0. -/
def parseFloat64 (text : String) : F64 :=
  match parseDecimal text.toList with
  | none => .fin false 0 0
  | some (neg, mant, ex) =>
    if 0 ≤ ex then toBinary64 neg (mant * 10 ^ ex.toNat) 1
    else toBinary64 neg mant (10 ^ (-ex).toNat)

/-- Decimal digits of `n`, most significant first (`fuel` bounds the steps). -/
def natDigitsAux : Nat → Nat → List Char → List Char
  | 0, _, acc => acc
  | fuel + 1, n, acc =>
    let acc1 := Char.ofNat (48 + n % 10) :: acc
    if n / 10 = 0 then acc1 else natDigitsAux fuel (n / 10) acc1

def natDigits (n : Nat) : List Char := natDigitsAux (n + 1) n []

/-- The verb `%.<prec>f`. -/
def fmtFixed (prec : Nat) : F64 → String
  | .nan => "NaN"
  | .inf neg => if neg then "-Inf" else "+Inf"
  | .fin neg m e =>
    let scaled :=
      if 0 ≤ e then m * 2 ^ e.toNat * 10 ^ prec
      else roundHalfEven (m * 10 ^ prec) (2 ^ (-e).toNat)
    let ip := natDigits (scaled / 10 ^ prec)
    let fp := natDigits (scaled % 10 ^ prec)
    let frac := if prec = 0 then [] else '.' :: (List.replicate (prec - fp.length) '0' ++ fp)
    String.mk ((if neg then ['-'] else []) ++ ip ++ frac)

/-- The comparison `x != 0`. -/
def F64.nonZero : F64 → Bool
  | .fin _ m _ => m != 0
  | .inf _ => true
  | .nan => true

/-- The float64 operations on decimal texts. -/
def binary64 : NumLib F64 := ⟨parseFloat64, fmtFixed, F64.nonZero⟩

/-! ## `encoding/json` on parsed documents

An instance of the decoders of `Env`, on bodies given as parsed JSON values
(`none` for a body that does not start with a JSON value).  It follows the
rules of `Unmarshal` for the struct declarations of the source:
* an object member is matched to the field whose `json` tag equals its name,
  or else to the first field whose tag equals it up to case; other members are
  skipped;
* `null` leaves a string or number field as it is and sets a pointer or a slice
  to nil; a JSON string is stored in a string field; a `json.Number` field
  takes the literal text of a JSON number, or a JSON string that holds a
  valid number (any JSON string, before Go 1.14); an `int` field takes an
  integer literal in the 64-bit range;
* any other combination makes `Decode` return an error.
A later member matched to a field already decoded replaces the value here; the
library decodes a repeated pointer or slice member into the value already
stored, so documents that repeat such a member fall outside this instance. -/

/-- A parsed JSON value; a number keeps its literal text. -/
inductive Json where
  | null
  | bool (b : Bool)
  | number (literal : String)
  | string (s : String)
  | array (elements : List Json)
  | object (members : List (String × Json))

/-- Simple case folding on the letters a tag can hold: upper-case ASCII letters, and the
two other characters that fold to an ASCII letter (long s and the Kelvin sign). -/
def foldChar (c : Char) : Char :=
  if 'A' ≤ c ∧ c ≤ 'Z' then Char.ofNat (c.toNat + 32)
  else if c = Char.ofNat 0x17F then 's'
  else if c = Char.ofNat 0x212A then 'k'
  else c

/-- Equality up to case of a tag and a member name. -/
def foldEq (tag key : String) : Bool :=
  tag.toList.map foldChar == key.toList.map foldChar

/-- The field a member name is matched to: the index of the tag equal to it, or else of
the first tag equal to it up to case. -/
def selectField (tags : List String) (key : String) : Option Nat :=
  match tags.indexOf? key with
  | some i => some i
  | none => tags.findIdx? (fun tag => foldEq tag key)

/-- Skips a run of decimal digits. -/
def skipDigits : List Char → List Char
  | [] => []
  | c :: cs => if c.isDigit then skipDigits cs else c :: cs

/-- The function `isValidNumber` of `encoding/json`: whether a text is a JSON number. -/
def isValidNumber (s : List Char) : Bool :=
  let s1 := match s with
    | '-' :: r => r
    | r => r
  match s1 with
  | [] => false
  | c :: r =>
    let afterInt : Option (List Char) :=
      if c = '0' then some r
      else if '1' ≤ c ∧ c ≤ '9' then some (skipDigits r)
      else none
    match afterInt with
    | none => false
    | some s2 =>
      let s3 := match s2 with
        | '.' :: d :: r2 => if d.isDigit then skipDigits r2 else s2
        | _ => s2
      let s4 : Option (List Char) := match s3 with
        | e :: x :: r3 =>
          if e = 'e' ∨ e = 'E' then
            if x = '+' ∨ x = '-' then (if r3 = [] then none else some (skipDigits r3))
            else some (skipDigits (x :: r3))
          else some s3
        | _ => some s3
      s4 == some []

/-- The value of a run of decimal digits, `none` when a character is no digit. -/
def digitsValue : List Char → Nat → Option Nat
  | [], acc => some acc
  | c :: cs, acc => if c.isDigit then digitsValue cs (acc * 10 + (c.toNat - 48)) else none

/-- The function `strconv.ParseInt(s, 10, 64)` on the literal of a JSON number. -/
def parseInt64 (s : List Char) : Option Int :=
  match s with
  | [] => none
  | '-' :: ds =>
    match ds, digitsValue ds 0 with
    | _ :: _, some v => if v ≤ 2 ^ 63 then some (-(v : Int)) else none
    | _, _ => none
  | ds =>
    match digitsValue ds 0 with
    | some v => if v < 2 ^ 63 then some (v : Int) else none
    | none => none

/-- Decoding into a `string` field that holds `cur`. -/
def storeString (cur : String) : Json → Option String
  | .null => some cur
  | .string s => some s
  | _ => none

/-- Decoding into a `json.Number` field that holds `cur`. -/
def storeNumber (cur : String) : Json → Option String
  | .null => some cur
  | .number literal => some literal
  | .string s => if isValidNumber s.toList then some s else none
  | _ => none

/-- Decoding into an `int` field that holds `cur`. -/
def storeInt (cur : Int) : Json → Option Int
  | .null => some cur
  | .number literal => parseInt64 literal.toList
  | _ => none

/-- The `json` tags of the `Token` struct, in field order. -/
def tokenTags : List String :=
  ["id", "symbol", "name", "priceUsd", "changePercent24Hr", "comment"]

/-- The field of a token at an index of `tokenTags`. -/
def Token.get (t : Token) : Nat → String
  | 0 => t.ID
  | 1 => t.Symbol
  | 2 => t.Name
  | 3 => t.PriceUsd
  | 4 => t.ChangePercent24Hr
  | _ => t.Comment

/-- Assignment to the field of a token at an index of `tokenTags`. -/
def Token.set (t : Token) (i : Nat) (x : String) : Token :=
  match i with
  | 0 => { t with ID := x }
  | 1 => { t with Symbol := x }
  | 2 => { t with Name := x }
  | 3 => { t with PriceUsd := x }
  | 4 => { t with ChangePercent24Hr := x }
  | _ => { t with Comment := x }

/-- Decoding into the field of a token at an index of `tokenTags`: `PriceUsd` and
`ChangePercent24Hr` are `json.Number`, the other fields are `string`. -/
def storeTokenField (t : Token) (i : Nat) (v : Json) : Option Token :=
  if i = 3 ∨ i = 4 then (storeNumber (t.get i) v).map (t.set i)
  else (storeString (t.get i) v).map (t.set i)

/-- Decoding the members of an object into a `Token`. -/
def decodeTokenMembers : List (String × Json) → Token → Option Token
  | [], t => some t
  | (k, v) :: ms, t =>
    match selectField tokenTags k with
    | none => decodeTokenMembers ms t
    | some i =>
      match storeTokenField t i v with
      | none => none
      | some t' => decodeTokenMembers ms t'

/-- The zero value of `Token`. -/
def Token.zero : Token := ⟨"", "", "", "", "", ""⟩

/-- Decoding into a nil `*Token`: the outer `none` is an error, the inner one nil. -/
def decodeTokenPtr : Json → Option (Option Token)
  | .null => some none
  | .object ms => (decodeTokenMembers ms Token.zero).map some
  | _ => none

/-- Decoding the elements of an array into a `[]*Token`. -/
def decodeElements : List Json → Option (List (Option Token))
  | [] => some []
  | j :: js =>
    match decodeTokenPtr j with
    | none => none
    | some p =>
      match decodeElements js with
      | none => none
      | some ps => some (p :: ps)

/-- Decoding into a `[]*Token` field. -/
def storeTokens : Json → Option (List (Option Token))
  | .null => some []
  | .array elements => decodeElements elements
  | _ => none

/-- The `json` tags of the `Result` structs of `getTokens` and `getCoinCapToken`. -/
def resultTags : List String := ["data", "timestamp"]

/-- Decoding the members of an object into the `Result` of `getTokens`. -/
def decodeAssetsMembers : List (String × Json) → AssetsResult → Option AssetsResult
  | [], r => some r
  | (k, v) :: ms, r =>
    match selectField resultTags k with
    | none => decodeAssetsMembers ms r
    | some 0 =>
      match storeTokens v with
      | none => none
      | some d => decodeAssetsMembers ms { r with Data := d }
    | some _ =>
      match storeInt r.Timestamp v with
      | none => none
      | some ts => decodeAssetsMembers ms { r with Timestamp := ts }

/-- The call `Decode(&result)` of `getTokens` on a parsed value. -/
def decodeAssets : Json → Option AssetsResult
  | .null => some ⟨[], 0⟩
  | .object ms => decodeAssetsMembers ms ⟨[], 0⟩
  | _ => none

/-- Decoding the members of an object into the `Result` of `getCoinCapToken`. -/
def decodeAssetMembers : List (String × Json) → AssetResult → Option AssetResult
  | [], r => some r
  | (k, v) :: ms, r =>
    match selectField resultTags k with
    | none => decodeAssetMembers ms r
    | some 0 =>
      match decodeTokenPtr v with
      | none => none
      | some d => decodeAssetMembers ms { r with Data := d }
    | some _ =>
      match storeInt r.Timestamp v with
      | none => none
      | some ts => decodeAssetMembers ms { r with Timestamp := ts }

/-- The call `Decode(&result)` of `getCoinCapToken` on a parsed value. -/
def decodeAsset : Json → Option AssetResult
  | .null => some ⟨none, 0⟩
  | .object ms => decodeAssetMembers ms ⟨none, 0⟩
  | _ => none

/-- The `json` tags of the `Result` struct of `getBinanceToken`. -/
def avgPriceTags : List String := ["price", "mins"]

/-- Decoding the members of an object into the `Result` of `getBinanceToken`. -/
def decodeAvgPriceMembers : List (String × Json) → AvgPriceResult → Option AvgPriceResult
  | [], r => some r
  | (k, v) :: ms, r =>
    match selectField avgPriceTags k with
    | none => decodeAvgPriceMembers ms r
    | some 0 =>
      match storeNumber r.Price v with
      | none => none
      | some x => decodeAvgPriceMembers ms { r with Price := x }
    | some _ =>
      match storeInt r.Mins v with
      | none => none
      | some m => decodeAvgPriceMembers ms { r with Mins := m }

/-- The call `Decode(&result)` of `getBinanceToken` on a parsed value. -/
def decodeAvgPrice : Json → Option AvgPriceResult
  | .null => some ⟨"", 0⟩
  | .object ms => decodeAvgPriceMembers ms ⟨"", 0⟩
  | _ => none

/-- The environment over parsed bodies: the transport is given, the decoders are the
ones above. -/
def jsonEnv (newRequest : Nat → String → String → Option String)
    (roundTrip : Nat → String → String → Except String (Response (Option Json))) :
    Env (Option Json) where
  newRequest := newRequest
  roundTrip := roundTrip
  decodeAvgPrice := fun body => body.bind decodeAvgPrice
  decodeAsset := fun body => body.bind decodeAsset
  decodeAssets := fun body => body.bind decodeAssets

/-! ## Well-formed catalog documents -/

/-- The member of an object that is matched to the field at index `i`. -/
def memberFor (tags : List String) (ms : List (String × Json)) (i : Nat) :
    Option (String × Json) :=
  ms.find? (fun m => selectField tags m.1 == some i)

/-- The text a document gives for the field at index `i` of a token record: the content
of the JSON string or the literal of the JSON number of the member matched to the field,
and the empty text when there is none. -/
def textOf (ms : List (String × Json)) (i : Nat) : String :=
  match memberFor tokenTags ms i with
  | some (_, .string s) => s
  | some (_, .number literal) => literal
  | _ => ""

/-- The token a record of the document describes. -/
def recordToken (ms : List (String × Json)) : Token :=
  ⟨textOf ms 0, textOf ms 1, textOf ms 2, textOf ms 3, textOf ms 4, textOf ms 5⟩

/-- The text of a member, or a default for a member of another kind or no member. -/
def textOr (ms : List (String × Json)) (i : Nat) (dflt : String) : String :=
  match memberFor tokenTags ms i with
  | some (_, .string s) => s
  | some (_, .number literal) => literal
  | _ => dflt

/-- The token with the texts of the members matched to its fields laid over `t`. -/
def overlay (ms : List (String × Json)) (t : Token) : Token :=
  ⟨textOr ms 0 (t.get 0), textOr ms 1 (t.get 1), textOr ms 2 (t.get 2),
   textOr ms 3 (t.get 3), textOr ms 4 (t.get 4), textOr ms 5 (t.get 5)⟩

/-- A value a well-formed record may give for the field at index `i`: a JSON string for
a text field; a JSON number, or a JSON string holding one, for the price and the change
percent. -/
def fieldValueOk (i : Nat) : Json → Bool
  | .string s => if i = 3 ∨ i = 4 then isValidNumber s.toList else true
  | .number _ => i = 3 ∨ i = 4
  | _ => false

/-- A well-formed token record: no two members are matched to the same field, every
member matched to a field holds a value of the field's kind, and `id`, `symbol`,
`name`, `priceUsd` and `changePercent24Hr` are all there. -/
def isRecord (ms : List (String × Json)) : Bool :=
  decide ((ms.filterMap (fun m => selectField tokenTags m.1)).Nodup) &&
  ms.all (fun m =>
    match selectField tokenTags m.1 with
    | some i => fieldValueOk i m.2
    | none => true) &&
  [0, 1, 2, 3, 4].all (fun i => (memberFor tokenTags ms i).isSome)

/-- A member that is not matched to the field `data`, and holds an integer or `null` if
it is matched to `timestamp`. -/
def sideMemberOk (m : String × Json) : Bool :=
  match selectField resultTags m.1 with
  | none => true
  | some 0 => false
  | some _ =>
    match m.2 with
    | .null => true
    | .number literal => (parseInt64 literal.toList).isSome
    | _ => false

/-! ## The two goroutines of `menuLoop` (`app.go:144-183`)

`menuLoop` starts an event goroutine (the `select` loop) and a ticker goroutine
(`updateTray` then `Sleep`, forever).  Both read the variables `selected` and
`source`, which only the event goroutine writes, and nothing orders the two.
The model is a system whose steps are taken by one goroutine at a time, in any
order.  The event goroutine handles one received event in one step (the toggle
loop or the assignment of `source`) and is then inside `updateTray`; a run of
`updateTray` copies the slice header and the source when it is called, and
reads one element of the backing array per step (a fetch lies between two
reads).  A token stands for the pointer stored in the slice. -/

/-- A backing array: the cells written so far, and its capacity. -/
structure Backing where
  cells : List Token
  cap : Nat
deriving DecidableEq, Repr

/-- A slice header: the backing array (its index in the heap) and the length. -/
structure Header where
  arr : Nat
  len : Nat
deriving DecidableEq, Repr

/-- A run of `updateTray` in progress: its parameters `selected` and `source`, the
index the `range` loop is at, and the tokens it has read so far. -/
structure Run where
  selected : Header
  source : String
  idx : Nat
  frame : List Token
deriving DecidableEq, Repr

/-- The state of the system.  `eventRun` and `tickRun` are the runs of `updateTray` in
progress in the two goroutines; `eventFrames` and `tickFrames` list, for the finished
runs, the tokens and the source the title was built from; `history` lists the values
the pair of `selected` and `source` has had, one entry per assignment to either. -/
structure Sys where
  heap : List Backing
  selected : Header
  source : String
  eventRun : Option Run
  tickRun : Option Run
  eventFrames : List (List Token × String)
  tickFrames : List (List Token × String)
  history : List (List Token × String)
deriving DecidableEq, Repr

/-- The elements visible through a header. -/
def visible (heap : List Backing) (h : Header) : List Token :=
  match heap[h.arr]? with
  | some b => b.cells.take h.len
  | none => []

/-- The state `menuLoop` sets up: `selected := make([]*Token, 0)`, `var source string`. -/
def Sys.init : Sys :=
  ⟨[⟨[], 0⟩], ⟨0, 0⟩, "", none, none, [], [], [([], "")]⟩

/-- The toggle step on the shared slice.  The deletions happen inside the backing
array.  The final `append(selected, clickedTokenID)` writes into the backing array when
the capacity allows it and otherwise moves the slice to a new array, whose capacity the
run-time system chooses (`grow`). -/
def toggleShared (grow : Nat → Nat) (heap : List Backing) (sel : Header) (clicked : Token) :
    Option (List Backing × Header) :=
  match heap[sel.arr]? with
  | none => none
  | some b =>
    match rangeSelected clicked sel.len 0 ⟨b.cells, sel.len⟩ false with
    | none => none
    | some (s, found) =>
      if !found then
        if s.len < b.cap then
          some (heap.set sel.arr ⟨s.arr.take s.len ++ [clicked] ++ s.arr.drop (s.len + 1), b.cap⟩,
                ⟨sel.arr, s.len + 1⟩)
        else
          some (heap ++ [⟨s.arr.take s.len ++ [clicked], max (grow b.cap) (s.len + 1)⟩],
                ⟨heap.length, s.len + 1⟩)
      else
        some (heap.set sel.arr ⟨s.arr, b.cap⟩, ⟨sel.arr, s.len⟩)

/-- The loop over one received batch, on the shared slice; the third component lists the
values `selected` has after each pass. -/
def toggleAllShared (grow : Nat → Nat) :
    List Backing → Header → List Token → Option (List Backing × Header × List (List Token))
  | heap, sel, [] => some (heap, sel, [])
  | heap, sel, c :: cs =>
    match toggleShared grow heap sel c with
    | none => none
    | some (heap', sel') =>
      match toggleAllShared grow heap' sel' cs with
      | none => none
      | some (heap'', sel'', seen) => some (heap'', sel'', visible heap' sel' :: seen)

/-- One iteration of `for _, token := range selected` in `updateTray`. -/
def Run.read (heap : List Backing) (r : Run) : Option Run :=
  if r.idx < r.selected.len then
    match heap[r.selected.arr]? with
    | none => none
    | some b =>
      match b.cells[r.idx]? with
      | none => none
      | some token => some { r with idx := r.idx + 1, frame := r.frame ++ [token] }
  else
    none

/-- The steps of the system. -/
inductive Action where
  | receive (e : Event)
  | eventRead
  | eventSetTitle
  | tickStart
  | tickRead
  | tickSetTitle
deriving DecidableEq, Repr

/-- One step; `none` when the step is not possible in the state (or panics).
* `receive e`: the event goroutine, waiting in `select`, receives `e`, runs the toggle
  loop or assigns `source`, and calls `updateTray(selected, source)`;
* `eventRead`, `tickRead`: a run reads its next element;
* `eventSetTitle`, `tickSetTitle`: a run that has read all its elements sets the title
  and returns;
* `tickStart`: the ticker goroutine calls `updateTray(selected, source)`. -/
def step (grow : Nat → Nat) (s : Sys) : Action → Option Sys
  | .receive (.clicked cs) =>
    match s.eventRun with
    | some _ => none
    | none =>
      match toggleAllShared grow s.heap s.selected cs with
      | none => none
      | some (heap, sel, seen) =>
        some { s with heap := heap, selected := sel,
                      eventRun := some ⟨sel, s.source, 0, []⟩,
                      history := s.history ++ seen.map (fun l => (l, s.source)) }
  | .receive (.source name) =>
    match s.eventRun with
    | some _ => none
    | none =>
      some { s with source := name,
                    eventRun := some ⟨s.selected, name, 0, []⟩,
                    history := s.history ++ [(visible s.heap s.selected, name)] }
  | .eventRead =>
    match s.eventRun with
    | none => none
    | some r =>
      match r.read s.heap with
      | none => none
      | some r' => some { s with eventRun := some r' }
  | .eventSetTitle =>
    match s.eventRun with
    | none => none
    | some r =>
      if r.idx = r.selected.len then
        some { s with eventRun := none, eventFrames := s.eventFrames ++ [(r.frame, r.source)] }
      else none
  | .tickStart =>
    match s.tickRun with
    | some _ => none
    | none => some { s with tickRun := some ⟨s.selected, s.source, 0, []⟩ }
  | .tickRead =>
    match s.tickRun with
    | none => none
    | some r =>
      match r.read s.heap with
      | none => none
      | some r' => some { s with tickRun := some r' }
  | .tickSetTitle =>
    match s.tickRun with
    | none => none
    | some r =>
      if r.idx = r.selected.len then
        some { s with tickRun := none, tickFrames := s.tickFrames ++ [(r.frame, r.source)] }
      else none

/-- A sequence of steps. -/
def run (grow : Nat → Nat) : Sys → List Action → Option Sys
  | s, [] => some s
  | s, a :: as =>
    match step grow s a with
    | none => none
    | some s' => run grow s' as

/-- The capacity `append` gives a full slice of capacity `c` that grows by one element,
as long as the slice is small: one for an empty slice, else the double. -/
def growSmall (c : Nat) : Nat := if c = 0 then 1 else 2 * c

/-! ## The title in the words of the specification -/

/-- The prefix of the title, in the words of the specification: the source and ": ",
with the default provider's label for an unset source. -/
def specPrefix (source : String) : String :=
  if source = "" then "coincap: " else source ++ ": "

/-- The segment of one watched token, in the words of the specification: symbol and error
message on an error; otherwise symbol and price with three decimals, followed by the
percent with two decimals when it is not zero.  A fetch that returns neither a token nor
an error contributes nothing. -/
def specSegment {F : Type} (lib : NumLib F) (token : Token) :
    Option Token × Option String → String
  | (_, some err) => token.Symbol ++ " - " ++ err ++ " "
  | (some u, none) =>
    u.Symbol ++ " - " ++ lib.fmtFixed 3 (lib.Float64 u.PriceUsd) ++ "$ " ++
      (if lib.nonZero (lib.Float64 u.ChangePercent24Hr)
       then "[" ++ lib.fmtFixed 2 (lib.Float64 u.ChangePercent24Hr) ++ "%]  " else "")
  | (none, none) => ""

/-- The segments of the watch list from index `i` on, in watch-list order. -/
def specSegments {F : Type} (lib : NumLib F) (fetch : Nat → Token → Option Token × Option String) :
    Nat → List Token → List String
  | _, [] => []
  | i, token :: rest => specSegment lib token (fetch i token) :: specSegments lib fetch (i + 1) rest

/-- Concatenation of texts in list order. -/
def concatAll (l : List String) : String := l.foldr (fun a b => a ++ b) ""

/-- The title in the words of the specification. -/
def specTitle {F : Type} (lib : NumLib F) (fetch : Nat → Token → Option Token × Option String)
    (selected : List Token) (source : String) : String :=
  specPrefix source ++
    (if selected = [] then "select coin" else concatAll (specSegments lib fetch 0 selected))

/-- A change percent text is zero or empty: the empty text, or a decimal text all of
whose digits are 0 (such as "0", "0.00" or "-0e3"). -/
def ZeroOrEmpty (pct : String) : Prop :=
  pct = "" ∨ ∃ neg ex, parseDecimal pct.toList = some (neg, 0, ex)

/-! ## What holds of the event goroutine -/

/-- What holds of the event goroutine in every reachable state. -/
def EventInv (s : Sys) : Prop :=
  (∀ f ∈ s.eventFrames, f ∈ s.history) ∧
  (visible s.heap s.selected, s.source) ∈ s.history ∧
  (∀ r, s.eventRun = some r →
    r.selected = s.selected ∧ r.source = s.source ∧ r.idx ≤ r.selected.len ∧
      r.frame = (visible s.heap s.selected).take r.idx)

/-! ## Example data -/

def tA : Token := ⟨"bitcoin", "BTC", "Bitcoin", "", "", ""⟩

def tB : Token := ⟨"ethereum", "ETH", "Ethereum", "", "", ""⟩

def tC : Token := ⟨"ripple", "XRP", "XRP", "", "", ""⟩

/-- An environment in which every request fails in the transport. -/
def envDown : Env String where
  newRequest := fun _ _ _ => none
  roundTrip := fun _ _ _ => .error "dial tcp: i/o timeout"
  decodeAvgPrice := fun _ => none
  decodeAsset := fun _ => none
  decodeAssets := fun _ => none

/-- An environment that answers every request with the given status and an empty
body. -/
def envStatus (status : Nat) : Env String where
  newRequest := fun _ _ _ => none
  roundTrip := fun _ _ _ => .ok ⟨status, ""⟩
  decodeAvgPrice := fun _ => none
  decodeAsset := fun _ => none
  decodeAssets := fun _ => none

/-- A token record with the values `TestApp_GetTokens` expects of the first token. -/
def bitcoinRecord : List (String × Json) :=
  [("id", .string "bitcoin"), ("rank", .string "1"), ("symbol", .string "BTC"),
   ("name", .string "Bitcoin"), ("priceUsd", .string "7791.7934691770748761"),
   ("changePercent24Hr", .string "-1.4691508362430571")]

/-- A catalog document of one record. -/
def catalogDoc : Json :=
  .object [("data", .array [.object bitcoinRecord]), ("timestamp", .number "1559217606537")]

/-- Three clicks that select BTC, ETH and XRP, each followed by its run of `updateTray`;
then a periodic run starts and reads its first element, a click on BTC is handled, and
the periodic run reads its other two elements and sets the title. -/
def raceTrace : List Action :=
  [.receive (.clicked [tA]), .eventRead, .eventSetTitle,
   .receive (.clicked [tB]), .eventRead, .eventRead, .eventSetTitle,
   .receive (.clicked [tC]), .eventRead, .eventRead, .eventRead, .eventSetTitle,
   .tickStart, .tickRead, .receive (.clicked [tA]), .tickRead, .tickRead, .tickSetTitle]

/-- The state after `raceTrace`. -/
def raceFinal : Sys :=
  { heap := [⟨[], 0⟩, ⟨[tA], 1⟩, ⟨[tA, tB], 2⟩, ⟨[tB, tC, tC], 4⟩]
    selected := ⟨3, 2⟩
    source := ""
    eventRun := some ⟨⟨3, 2⟩, "", 0, []⟩
    tickRun := none
    eventFrames := [([tA], ""), ([tA, tB], ""), ([tA, tB, tC], "")]
    tickFrames := [([tA, tC, tC], "")]
    history := [([], ""), ([tA], ""), ([tA, tB], ""), ([tA, tB, tC], ""), ([tB, tC], "")] }

/-! ## Lemmas on the toggle step -/

theorem getElem?_append_cons_length {α : Type} (a : List α) (v : α) (t : List α) :
    (a ++ v :: t)[a.length]? = some v := by
  induction a with
  | nil => simp
  | cons _ _ ih => simpa using ih

theorem take_length_append {α : Type} (a b : List α) : (a ++ b).take a.length = a := by
  simp

/-- Iterations over entries whose id differs from the clicked one change nothing. -/
theorem rangeSelected_skip (c : Token) (d : List Token) (len : Nat) (found : Bool) :
    ∀ (b a : List Token) (k : Nat), (∀ v ∈ b, v.ID ≠ c.ID) →
      rangeSelected c (b.length + k) a.length ⟨a ++ (b ++ d), len⟩ found
        = rangeSelected c k (a.length + b.length) ⟨a ++ (b ++ d), len⟩ found := by
  intro b
  induction b with
  | nil => intro a k _; simp
  | cons v b ih =>
    intro a k hb
    have hv : v.ID ≠ c.ID := hb v (List.mem_cons_self _ _)
    have hb' : ∀ w ∈ b, w.ID ≠ c.ID := fun w hw => hb w (List.mem_cons_of_mem _ hw)
    have hget : (a ++ (v :: b ++ d))[a.length]? = some v :=
      getElem?_append_cons_length a v (b ++ d)
    have hlen : (v :: b).length + k = (b.length + k) + 1 := by
      simp only [List.length_cons]; omega
    rw [hlen, rangeSelected]
    simp only [hget, hv, if_false]
    have hre : a ++ (v :: b ++ d) = (a ++ [v]) ++ (b ++ d) := by simp
    have h := ih (a ++ [v]) k hb'
    rw [← hre] at h
    simp only [List.length_append, List.length_singleton] at h
    rw [h]
    simp only [List.length_cons]
    congr 1
    omega

/-- The deletion at the position of `x` in `pre ++ x :: (rest ++ [z])`: the tail
moves down and the last array entry keeps `z`. -/
theorem deleteAt_mid (pre rest : List Token) (x z : Token) :
    deleteAt ⟨pre ++ x :: (rest ++ [z]), (pre ++ x :: (rest ++ [z])).length⟩ pre.length
      = some ⟨pre ++ (rest ++ [z] ++ [z]), pre.length + (rest.length + 1)⟩ := by
  have hl : (pre ++ x :: (rest ++ [z])).length = pre.length + 1 + (rest.length + 1) := by
    simp; omega
  have h1 : pre.length + 1 ≤ pre.length + 1 + (rest.length + 1) := by omega
  have e1 : pre.length + 1 + (rest.length + 1) - (pre.length + 1) = (rest ++ [z]).length := by
    simp
  have e2 : pre.length + 1 + (rest.length + 1) - 1 = (pre ++ x :: rest).length := by
    simp; omega
  have hd1 : (pre ++ x :: (rest ++ [z])).drop (pre.length + 1) = rest ++ [z] := by
    simp
  have hd2 : (pre ++ x :: (rest ++ [z])).drop (pre ++ x :: rest).length = [z] := by
    simp
  unfold deleteAt
  simp only [hl, h1, le_refl, and_self, if_true, e1, e2, take_length_append, hd1, hd2,
    List.take_length]
  simp

/-- The deletion of the last element of `pre ++ [x]`. -/
theorem deleteAt_last (pre : List Token) (x : Token) :
    deleteAt ⟨pre ++ [x], (pre ++ [x]).length⟩ pre.length = some ⟨pre ++ [x], pre.length⟩ := by
  unfold deleteAt
  simp

/-- A clicked token whose id is not in the list is appended at the end. -/
theorem toggle_absent (l : List Token) (t : Token) (h : ∀ v ∈ l, v.ID ≠ t.ID) :
    toggle l t = some (l ++ [t]) := by
  have hs := rangeSelected_skip t [] l.length false l [] 0 h
  simp only [List.nil_append, List.append_nil, List.length_nil, Nat.add_zero, Nat.zero_add,
    rangeSelected] at hs
  simp [toggle, hs, Slice.toList]

/-- Once no remaining entry carries the clicked id the loop ends unchanged. -/
theorem rangeSelected_done (c : Token) (a b : List Token) (len : Nat) (found : Bool)
    (k i : Nat) (arr : List Token) (hk : k = b.length) (hi : i = a.length)
    (harr : arr = a ++ b) (hb : ∀ v ∈ b, v.ID ≠ c.ID) :
    rangeSelected c k i ⟨arr, len⟩ found = some (⟨arr, len⟩, found) := by
  subst hk hi harr
  have h := rangeSelected_skip c [] len found b a 0 hb
  simp only [List.append_nil, Nat.add_zero] at h
  rw [h]
  rfl

/-- A clicked token whose id is carried by one element only removes that element. -/
theorem toggle_present (pre rest : List Token) (x t : Token) (hx : x.ID = t.ID)
    (hpre : ∀ v ∈ pre, v.ID ≠ t.ID) (hrest : ∀ v ∈ rest, v.ID ≠ t.ID) :
    toggle (pre ++ x :: rest) t = some (pre ++ rest) := by
  have h1 := rangeSelected_skip t (x :: rest) (pre ++ x :: rest).length false pre []
    (rest.length + 1) hpre
  simp only [List.nil_append, List.length_nil, Nat.zero_add] at h1
  have hlen : (pre ++ x :: rest).length = pre.length + (rest.length + 1) := by simp
  have hget : (pre ++ x :: rest)[pre.length]? = some x :=
    getElem?_append_cons_length pre x rest
  unfold toggle
  rw [hlen] at h1 ⊢
  rw [h1, rangeSelected]
  simp only [hget, hx, if_true]
  rw [← hlen]
  rcases List.eq_nil_or_concat rest with hnil | ⟨r0, z, hrz⟩
  · subst hnil
    rw [deleteAt_last]
    simp [rangeSelected, Slice.toList]
  · rw [List.concat_eq_append] at hrz
    subst hrz
    rw [deleteAt_mid]
    have hz : z.ID ≠ t.ID := hrest z (by simp)
    obtain ⟨hd, tl, htl⟩ : ∃ hd tl, r0 ++ [z] = hd :: tl := by
      cases r0 with
      | nil => exact ⟨z, [], rfl⟩
      | cons r rs => exact ⟨r, rs ++ [z], rfl⟩
    have hb : ∀ v ∈ tl ++ [z], v.ID ≠ t.ID := by
      intro v hv
      rcases List.mem_append.mp hv with hv | hv
      · exact hrest v (by rw [htl]; exact List.mem_cons_of_mem _ hv)
      · rw [List.mem_singleton.mp hv]; exact hz
    have h2 := rangeSelected_done t (pre ++ [hd]) (tl ++ [z]) (pre.length + (r0.length + 1)) true
      (r0 ++ [z]).length (pre.length + 1) (pre ++ (r0 ++ [z] ++ [z]))
      (by rw [htl]; simp) (by simp) (by rw [htl]; simp) hb
    simp only [h2]
    have h3 : (pre ++ (r0 ++ [z] ++ [z])).take (pre.length + (r0.length + 1))
        = pre ++ (r0 ++ [z]) := by
      have e : pre.length + (r0.length + 1) = (pre ++ (r0 ++ [z])).length := by simp
      have e2 : pre ++ (r0 ++ [z] ++ [z]) = (pre ++ (r0 ++ [z])) ++ [z] := by simp
      rw [e, e2, take_length_append]
    simp only [Slice.toList, h3]
    rfl

/-- In a list with pairwise distinct ids no other element carries the id of `x`. -/
theorem ids_ne_of_nodup (pre rest : List Token) (x : Token)
    (hnd : ((pre ++ x :: rest).map Token.ID).Nodup) :
    (∀ v ∈ pre, v.ID ≠ x.ID) ∧ (∀ v ∈ rest, v.ID ≠ x.ID) := by
  rw [List.map_append, List.map_cons] at hnd
  have h := List.nodup_append.mp hnd
  obtain ⟨_, h2, h3⟩ := h
  have h4 := List.nodup_cons.mp h2
  constructor
  · intro v hv he
    exact h3 (List.mem_map_of_mem Token.ID hv) (by rw [he]; exact List.mem_cons_self _ _)
  · intro v hv he
    exact h4.1 (by rw [← he]; exact List.mem_map_of_mem Token.ID hv)

/-- Removing an element keeps the ids pairwise distinct. -/
theorem nodup_remove (pre rest : List Token) (x : Token)
    (hnd : ((pre ++ x :: rest).map Token.ID).Nodup) :
    ((pre ++ rest).map Token.ID).Nodup := by
  have hs : List.Sublist ((pre ++ rest).map Token.ID) ((pre ++ x :: rest).map Token.ID) := by
    apply List.Sublist.map
    exact List.Sublist.append (List.Sublist.refl pre) (List.sublist_cons_self x rest)
  exact List.Nodup.sublist hs hnd

/-- Appending a token with a new id keeps the ids pairwise distinct. -/
theorem nodup_append_new (l : List Token) (t : Token) (hnd : (l.map Token.ID).Nodup)
    (h : ∀ v ∈ l, v.ID ≠ t.ID) : ((l ++ [t]).map Token.ID).Nodup := by
  rw [List.map_append, List.map_singleton]
  refine List.nodup_append.mpr ⟨hnd, List.nodup_singleton _, ?_⟩
  intro a ha hb
  rw [List.mem_singleton] at hb
  obtain ⟨v, hv, hva⟩ := List.mem_map.mp ha
  exact h v hv (by rw [hva, hb])

/-- A list either has no element with the id of `t` or splits at the first one. -/
theorem split_by_id (l : List Token) (t : Token) :
    (∀ v ∈ l, v.ID ≠ t.ID) ∨ ∃ pre x rest, l = pre ++ x :: rest ∧ x.ID = t.ID := by
  by_cases h : ∃ v ∈ l, v.ID = t.ID
  · obtain ⟨v, hv, he⟩ := h
    obtain ⟨pre, rest, hl⟩ := List.append_of_mem hv
    exact Or.inr ⟨pre, v, rest, hl, he⟩
  · left
    intro v hv he
    exact h ⟨v, hv, he⟩

/-- On a list with distinct ids the toggle step does not panic and keeps the ids distinct. -/
theorem toggle_nodup (l : List Token) (t : Token) (hnd : (l.map Token.ID).Nodup) :
    ∃ l', toggle l t = some l' ∧ (l'.map Token.ID).Nodup := by
  rcases split_by_id l t with h | ⟨pre, x, rest, hl, hx⟩
  · exact ⟨l ++ [t], toggle_absent l t h, nodup_append_new l t hnd h⟩
  · subst hl
    have hne := ids_ne_of_nodup pre rest x hnd
    rw [hx] at hne
    exact ⟨pre ++ rest, toggle_present pre rest x t hx hne.1 hne.2, nodup_remove pre rest x hnd⟩

theorem toggleAll_nodup (cs : List Token) :
    ∀ l : List Token, (l.map Token.ID).Nodup →
      ∃ l', toggleAll l cs = some l' ∧ (l'.map Token.ID).Nodup := by
  induction cs with
  | nil => intro l h; exact ⟨l, rfl, h⟩
  | cons c cs ih =>
    intro l h
    obtain ⟨l1, h1, hn1⟩ := toggle_nodup l c h
    obtain ⟨l2, h2, hn2⟩ := ih l1 hn1
    exact ⟨l2, by simp [toggleAll, h1, h2], hn2⟩

theorem runEvents_nodup (es : List Event) :
    ∀ st : LoopState, (st.selected.map Token.ID).Nodup →
      ∃ st', runEvents st es = some st' ∧ (st'.selected.map Token.ID).Nodup := by
  induction es with
  | nil => intro st h; exact ⟨st, rfl, h⟩
  | cons e es ih =>
    intro st h
    cases e with
    | clicked cs =>
      obtain ⟨l1, h1, hn1⟩ := toggleAll_nodup cs st.selected h
      obtain ⟨st2, h2, hn2⟩ := ih { st with selected := l1 } hn1
      exact ⟨st2, by simp [runEvents, handleEvent, h1, h2], hn2⟩
    | source name =>
      obtain ⟨st2, h2, hn2⟩ := ih { st with source := name } h
      exact ⟨st2, by simp [runEvents, handleEvent, h2], hn2⟩

/-! ## Claims on the watch list -/

/-- C2: on a watch list without duplicate ids the toggle step of `menuLoop` appends the
clicked token at the end when no element has its id, and otherwise removes exactly the
element with that id, keeping all other elements in their original order. -/
theorem toggle_step_spec (l : List Token) (t : Token) (hnd : (l.map Token.ID).Nodup) :
    ((∀ v ∈ l, v.ID ≠ t.ID) → toggle l t = some (l ++ [t])) ∧
    (∀ pre x rest, l = pre ++ x :: rest → x.ID = t.ID → toggle l t = some (pre ++ rest)) := by
  refine ⟨toggle_absent l t, ?_⟩
  intro pre x rest hl hx
  subst hl
  have hne := ids_ne_of_nodup pre rest x hnd
  rw [hx] at hne
  exact toggle_present pre rest x t hx hne.1 hne.2

theorem toggle_step_spec_witness :
    ([tA, tB, tC].map Token.ID).Nodup ∧
    toggle [tA, tB, tC] { tB with PriceUsd := "1" } = some [tA, tC] :=
  ⟨by decide,
   (toggle_step_spec [tA, tB, tC] { tB with PriceUsd := "1" } (by decide)).2
     [tA] tB [tC] rfl rfl⟩

/-- C3 as stated fails: toggling a token that is present but not last, twice, moves it to
the end of the list. -/
theorem toggle_twice_not_identity :
    ¬ ∀ (l : List Token) (t : Token), (l.map Token.ID).Nodup →
        (toggle l t).bind (fun l' => toggle l' t) = some l := by
  intro h
  have h1 := h [tA, tB] tA (by decide)
  revert h1
  decide

/-- C3 amended: on a watch list without duplicate ids, toggling `t` twice gives back the
original list when no element has the id of `t`; when an element has it, the result is
the list without that element followed by `t`. -/
theorem toggle_twice (l : List Token) (t : Token) (hnd : (l.map Token.ID).Nodup) :
    ((∀ v ∈ l, v.ID ≠ t.ID) → (toggle l t).bind (fun l' => toggle l' t) = some l) ∧
    (∀ pre x rest, l = pre ++ x :: rest → x.ID = t.ID →
      (toggle l t).bind (fun l' => toggle l' t) = some (pre ++ rest ++ [t])) := by
  constructor
  · intro h
    rw [toggle_absent l t h]
    have := toggle_present l [] t t rfl h (by simp)
    simpa using this
  · intro pre x rest hl hx
    subst hl
    have hne := ids_ne_of_nodup pre rest x hnd
    rw [hx] at hne
    rw [toggle_present pre rest x t hx hne.1 hne.2]
    have hab : ∀ v ∈ pre ++ rest, v.ID ≠ t.ID := by
      intro v hv
      rcases List.mem_append.mp hv with hv | hv
      · exact hne.1 v hv
      · exact hne.2 v hv
    simpa using toggle_absent (pre ++ rest) t hab

theorem toggle_twice_witness :
    ([tA, tB, tC].map Token.ID).Nodup ∧
    (toggle [tA, tB, tC] tA).bind (fun l' => toggle l' tA) = some [tB, tC, tA] :=
  ⟨by decide, (toggle_twice [tA, tB, tC] tA (by decide)).2 [] tA [tB, tC] rfl rfl⟩

/-- C4: starting from the empty list of `menuLoop`, after any sequence of received events
(click batches of any tokens, also with repeated ids, and source changes) the event loop
has not panicked and the ids in `selected` are pairwise distinct. -/
theorem selected_ids_nodup (es : List Event) :
    ∃ st, runEvents LoopState.init es = some st ∧ (st.selected.map Token.ID).Nodup :=
  runEvents_nodup es LoopState.init (by simp [LoopState.init])

/-! ## Lemmas on the decoder -/

theorem selectField_lt (tags : List String) (key : String) (i : Nat)
    (h : selectField tags key = some i) : i < tags.length := by
  unfold selectField at h
  split at h
  · rename_i j hj
    have e : j = i := Option.some.inj h
    subst e
    unfold List.indexOf? at hj
    exact (List.findIdx?_eq_some_iff_findIdx_eq.mp hj).1
  · exact (List.findIdx?_eq_some_iff_findIdx_eq.mp h).1

theorem Token.eta (t : Token) :
    t = ⟨t.get 0, t.get 1, t.get 2, t.get 3, t.get 4, t.get 5⟩ := by
  cases t; rfl

theorem Token.get_set (t : Token) (x : String) (i j : Nat) (hi : i < 6) (hj : j < 6) :
    (t.set i x).get j = if j = i then x else t.get j := by
  interval_cases i <;> interval_cases j <;> rfl

theorem memberFor_cons_skip (tags : List String) (k : String) (v : Json)
    (ms : List (String × Json)) (j : Nat) (h : selectField tags k ≠ some j) :
    memberFor tags ((k, v) :: ms) j = memberFor tags ms j := by
  unfold memberFor
  rw [List.find?_cons]
  have : (selectField tags k == some j) = false := by
    simpa using h
  simp [this]

theorem memberFor_cons_hit (tags : List String) (k : String) (v : Json)
    (ms : List (String × Json)) (j : Nat) (h : selectField tags k = some j) :
    memberFor tags ((k, v) :: ms) j = some (k, v) := by
  unfold memberFor
  rw [List.find?_cons]
  simp [h]

theorem memberFor_none (tags : List String) (ms : List (String × Json)) (i : Nat)
    (h : i ∉ ms.filterMap (fun m => selectField tags m.1)) : memberFor tags ms i = none := by
  unfold memberFor
  rw [List.find?_eq_none]
  intro m hm hsel
  apply h
  rw [List.mem_filterMap]
  exact ⟨m, hm, by simpa using hsel⟩

/-- The value a well-formed member stores in its field. -/
theorem storeTokenField_ok (t : Token) (i : Nat) (v : Json) (hv : fieldValueOk i v = true) :
    ∃ x, storeTokenField t i v = some (t.set i x) ∧
      ∀ (k : String) (ms : List (String × Json)) (d : String),
        memberFor tokenTags ms i = some (k, v) → textOr ms i d = x := by
  unfold storeTokenField
  cases v with
  | null => simp [fieldValueOk] at hv
  | bool b => simp [fieldValueOk] at hv
  | array e => simp [fieldValueOk] at hv
  | object m => simp [fieldValueOk] at hv
  | number l =>
    have hi : i = 3 ∨ i = 4 := by simpa [fieldValueOk] using hv
    refine ⟨l, by simp [hi, storeNumber], ?_⟩
    intro k ms d hm
    simp [textOr, hm]
  | string x =>
    refine ⟨x, ?_, ?_⟩
    · by_cases hi : i = 3 ∨ i = 4
      · have hvn : isValidNumber x.data = true := by simpa [fieldValueOk, hi] using hv
        simp [hi, storeNumber, hvn]
      · simp [hi, storeString]
    · intro k ms d hm
      simp [textOr, hm]

theorem overlay_congr (ms ms' : List (String × Json)) (t t' : Token)
    (h : ∀ j, j < 6 → textOr ms j (t.get j) = textOr ms' j (t'.get j)) :
    overlay ms t = overlay ms' t' := by
  unfold overlay
  rw [h 0 (by omega), h 1 (by omega), h 2 (by omega), h 3 (by omega), h 4 (by omega),
    h 5 (by omega)]

/-- Decoding the members of a record whose members are matched to pairwise different
fields and hold values of the fields' kinds. -/
theorem decodeTokenMembers_overlay (ms : List (String × Json)) :
    ∀ t : Token,
      (ms.filterMap (fun m => selectField tokenTags m.1)).Nodup →
      (∀ m ∈ ms, ∀ i, selectField tokenTags m.1 = some i → fieldValueOk i m.2 = true) →
      decodeTokenMembers ms t = some (overlay ms t) := by
  induction ms with
  | nil =>
    intro t _ _
    simp only [decodeTokenMembers, overlay, textOr, memberFor, List.find?_nil]
    exact congrArg some (Token.eta t)
  | cons m ms ih =>
    intro t hnd hok
    obtain ⟨k, v⟩ := m
    have hok' : ∀ m ∈ ms, ∀ i, selectField tokenTags m.1 = some i → fieldValueOk i m.2 = true :=
      fun m hm => hok m (List.mem_cons_of_mem _ hm)
    rcases hsel : selectField tokenTags k with _ | i
    · have hnd' : (ms.filterMap (fun m => selectField tokenTags m.1)).Nodup := by
        simpa [List.filterMap_cons, hsel] using hnd
      simp only [decodeTokenMembers, hsel]
      rw [ih t hnd' hok']
      congr 1
      apply overlay_congr
      intro j _
      unfold textOr
      rw [memberFor_cons_skip tokenTags k v ms j (by rw [hsel]; simp)]
    · have hi : i < 6 := selectField_lt tokenTags k i hsel
      have hnd2 : i ∉ ms.filterMap (fun m => selectField tokenTags m.1) ∧
          (ms.filterMap (fun m => selectField tokenTags m.1)).Nodup := by
        simpa [List.filterMap_cons, hsel] using hnd
      obtain ⟨x, hx, htext⟩ := storeTokenField_ok t i v
        (hok (k, v) (List.mem_cons_self _ _) i hsel)
      simp only [decodeTokenMembers, hsel, hx]
      rw [ih (t.set i x) hnd2.2 hok']
      congr 1
      apply overlay_congr
      intro j hj
      by_cases hji : j = i
      · subst hji
        have hnone := memberFor_none tokenTags ms j hnd2.1
        have hhit := memberFor_cons_hit tokenTags k v ms j hsel
        rw [htext k ((k, v) :: ms) (t.get j) hhit]
        simp [textOr, hnone, Token.get_set t x j j hi hi]
      · have hne : selectField tokenTags k ≠ some j := by
          rw [hsel]
          intro h
          exact hji (Option.some.inj h).symm
        unfold textOr
        rw [memberFor_cons_skip tokenTags k v ms j hne, Token.get_set t x i j hi hj]
        simp [hji]

theorem overlay_zero (ms : List (String × Json)) : overlay ms Token.zero = recordToken ms := by
  rfl

/-- Decoding a well-formed record gives the token the record describes. -/
theorem decodeTokenPtr_record (ms : List (String × Json)) (h : isRecord ms = true) :
    decodeTokenPtr (.object ms) = some (some (recordToken ms)) := by
  unfold isRecord at h
  simp only [Bool.and_eq_true, decide_eq_true_eq, List.all_eq_true] at h
  obtain ⟨⟨hnd, hok⟩, _⟩ := h
  have hok' : ∀ m ∈ ms, ∀ i, selectField tokenTags m.1 = some i → fieldValueOk i m.2 = true := by
    intro m hm i hi
    have := hok m hm
    rw [hi] at this
    exact this
  simp only [decodeTokenPtr, decodeTokenMembers_overlay ms Token.zero hnd hok', overlay_zero,
    Option.map_some']

theorem decodeElements_records (records : List (List (String × Json)))
    (h : ∀ r ∈ records, isRecord r = true) :
    decodeElements (records.map Json.object)
      = some (records.map (fun r => some (recordToken r))) := by
  induction records with
  | nil => rfl
  | cons r rs ih =>
    have h1 := decodeTokenPtr_record r (h r (List.mem_cons_self _ _))
    have h2 := ih (fun r' hr' => h r' (List.mem_cons_of_mem _ hr'))
    simp only [List.map_cons, decodeElements, h1, h2]

/-- Members that are not matched to `data` leave `Data` as it is. -/
theorem decodeAssetsMembers_side (ms : List (String × Json)) :
    ∀ r : AssetsResult, ms.all sideMemberOk = true →
      ∃ ts, decodeAssetsMembers ms r = some ⟨r.Data, ts⟩ := by
  induction ms with
  | nil => intro r _; exact ⟨r.Timestamp, rfl⟩
  | cons m ms ih =>
    intro r h
    obtain ⟨k, v⟩ := m
    simp only [List.all_cons, Bool.and_eq_true] at h
    obtain ⟨hm, hms⟩ := h
    unfold sideMemberOk at hm
    simp only at hm
    rcases hsel : selectField resultTags k with _ | i
    · simp only [decodeAssetsMembers, hsel]
      exact ih r hms
    · rw [hsel] at hm
      cases i with
      | zero => simp at hm
      | succ i =>
        simp only at hm
        cases v with
        | null =>
          simp only [decodeAssetsMembers, hsel, storeInt]
          exact ih { r with Timestamp := r.Timestamp } hms
        | number l =>
          simp only at hm
          obtain ⟨ts, hts⟩ := Option.isSome_iff_exists.mp hm
          simp only [decodeAssetsMembers, hsel, storeInt, hts]
          exact ih { r with Timestamp := ts } hms
        | bool b => simp at hm
        | string x => simp at hm
        | array e => simp at hm
        | object o => simp at hm

theorem decodeAssetsMembers_append (a b : List (String × Json)) :
    ∀ r : AssetsResult,
      decodeAssetsMembers (a ++ b) r = (decodeAssetsMembers a r).bind (decodeAssetsMembers b) := by
  induction a with
  | nil => intro r; rfl
  | cons m a ih =>
    intro r
    obtain ⟨k, v⟩ := m
    rcases hsel : selectField resultTags k with _ | i
    · simp only [List.cons_append, decodeAssetsMembers, hsel]
      exact ih r
    · cases i with
      | zero =>
        simp only [List.cons_append, decodeAssetsMembers, hsel]
        cases storeTokens v with
        | none => rfl
        | some d => exact ih _
      | succ i =>
        simp only [List.cons_append, decodeAssetsMembers, hsel]
        cases storeInt r.Timestamp v with
        | none => rfl
        | some ts => exact ih _

/-- Decoding a catalog document: one member matched to `data`, an array of well-formed
records; the other members matched to no field or holding a timestamp. -/
theorem decodeAssets_catalog (pre post : List (String × Json)) (k : String)
    (records : List (List (String × Json)))
    (hk : selectField resultTags k = some 0)
    (hpre : pre.all sideMemberOk = true) (hpost : post.all sideMemberOk = true)
    (hrec : ∀ r ∈ records, isRecord r = true) :
    ∃ ts, decodeAssets (.object (pre ++ (k, .array (records.map Json.object)) :: post))
      = some ⟨records.map (fun r => some (recordToken r)), ts⟩ := by
  obtain ⟨ts1, h1⟩ := decodeAssetsMembers_side pre ⟨[], 0⟩ hpre
  obtain ⟨ts2, h2⟩ := decodeAssetsMembers_side post
    ⟨records.map (fun r => some (recordToken r)), ts1⟩ hpost
  refine ⟨ts2, ?_⟩
  simp only [decodeAssets, decodeAssetsMembers_append, h1, Option.bind_some,
    decodeAssetsMembers, hk, storeTokens, decodeElements_records records hrec]
  exact h2

/-! ## Claims on startup and fetching -/

/-- The function-level `err` of `loadTokensForMenu` is never assigned: whatever the calls
of `getTokens` return, the error returned is nil. -/
theorem loadTokensLoop_err_nil (attempt : Nat → List (Option Token) × Option String) :
    ∀ (k i : Nat) (titles : List String), (loadTokensLoop attempt none k i titles).err = none := by
  intro k
  induction k with
  | zero => intro i titles; rfl
  | succ k ih =>
    intro i titles
    unfold loadTokensLoop
    split
    · rfl
    · exact ih (i + 1) _

/-- C1 (the code departs from the claim): when `getTokens` fails on all ten attempts,
`loadTokensForMenu` returns a nil error, after ten error titles, and `onReady` goes on to
`createMenu` with an empty catalog instead of panicking. -/
theorem loadTokensForMenu_all_attempts_fail :
    (∀ i, getTokens envDown 20 i = ([], some "connection problem")) ∧
    loadTokensForMenu (getTokens envDown 20)
      = ⟨[], none, List.replicate 10 "crypto-tray-ticker: connection problem"⟩ ∧
    onReady (getTokens envDown 20) = .menuCreated [] := by
  refine ⟨fun _ => rfl, ?_, ?_⟩
  · decide
  · decide

/-- C7: when the answer to the binance request has status 400, `getBinanceToken` returns
the error "token not found" together with the token it was given, unchanged. -/
theorem getBinanceToken_bad_request {β : Type} (env : Env β) (n : Nat) (token : Token)
    (currency : String) (r : Response β)
    (hreq : makeRequest env n "GET"
      ("https://api.binance.com/api/v3/avgPrice?symbol=" ++ token.Symbol ++ currency) = .ok r)
    (hstatus : r.StatusCode = StatusBadRequest) :
    getBinanceToken env n token currency = (some token, some "token not found") := by
  simp [getBinanceToken, hreq, hstatus]

theorem getBinanceToken_bad_request_witness :
    makeRequest (envStatus 400) 0 "GET"
        ("https://api.binance.com/api/v3/avgPrice?symbol=" ++
          (⟨"bitcoin", "BTC", "Bitcoin", "7791.79", "-1.46", "c"⟩ : Token).Symbol ++ "USDT")
      = .ok ⟨400, ""⟩ ∧
    getBinanceToken (envStatus 400) 0
        ⟨"bitcoin", "BTC", "Bitcoin", "7791.79", "-1.46", "c"⟩ "USDT"
      = (some ⟨"bitcoin", "BTC", "Bitcoin", "7791.79", "-1.46", "c"⟩, some "token not found") :=
  ⟨rfl, getBinanceToken_bad_request (envStatus 400) 0
    ⟨"bitcoin", "BTC", "Bitcoin", "7791.79", "-1.46", "c"⟩ "USDT" ⟨400, ""⟩ rfl rfl⟩

/-- The method `getTokens` hands on what the decoder gives, with a nil error. -/
theorem getTokens_of_decode {β : Type} (env : Env β) (tokensLimit : Int) (n : Nat)
    (r : Response β) (result : AssetsResult)
    (hreq : makeRequest env n "GET"
      ("https://api.coincap.io/v2/assets?limit=" ++ toString tokensLimit) = .ok r)
    (hstatus : r.StatusCode = StatusOK)
    (hdecode : env.decodeAssets r.Body = some result) :
    getTokens env tokensLimit n = (result.Data, none) := by
  simp [getTokens, hreq, hstatus, hdecode]

/-- C9: when the answer to the catalog request has status 200 and its body is a document
with one `data` member, an array of `n` well-formed token records (the other members
being matched to no field or holding the timestamp), `getTokens` returns no error and
exactly `n` tokens in the order of the array, each with the id, symbol, name, price and
change percent that its record gives, the price and the change percent as the text of
the document. -/
theorem getTokens_catalog (newRequest : Nat → String → String → Option String)
    (roundTrip : Nat → String → String → Except String (Response (Option Json)))
    (tokensLimit : Int) (n : Nat) (r : Response (Option Json))
    (pre post : List (String × Json)) (k : String) (records : List (List (String × Json)))
    (hreq : makeRequest (jsonEnv newRequest roundTrip) n "GET"
      ("https://api.coincap.io/v2/assets?limit=" ++ toString tokensLimit) = .ok r)
    (hstatus : r.StatusCode = StatusOK)
    (hbody : r.Body = some (.object (pre ++ (k, .array (records.map Json.object)) :: post)))
    (hk : selectField resultTags k = some 0)
    (hpre : pre.all sideMemberOk = true) (hpost : post.all sideMemberOk = true)
    (hrec : ∀ rec ∈ records, isRecord rec = true) :
    getTokens (jsonEnv newRequest roundTrip) tokensLimit n
        = (records.map (fun rec => some (recordToken rec)), none) ∧
    (getTokens (jsonEnv newRequest roundTrip) tokensLimit n).1.length = records.length := by
  obtain ⟨ts, hd⟩ := decodeAssets_catalog pre post k records hk hpre hpost hrec
  have h := getTokens_of_decode (jsonEnv newRequest roundTrip) tokensLimit n r
    ⟨records.map (fun rec => some (recordToken rec)), ts⟩ hreq hstatus
    (by simp only [jsonEnv, hbody]; exact hd)
  refine ⟨h, ?_⟩
  rw [h]
  simp

theorem getTokens_catalog_witness :
    isRecord bitcoinRecord = true ∧
    getTokens (jsonEnv (fun _ _ _ => none) (fun _ _ _ => .ok ⟨200, some catalogDoc⟩)) 50 0
      = ([some ⟨"bitcoin", "BTC", "Bitcoin", "7791.7934691770748761", "-1.4691508362430571", ""⟩],
         none) :=
  ⟨by decide,
   (getTokens_catalog (fun _ _ _ => none) (fun _ _ _ => .ok ⟨200, some catalogDoc⟩) 50 0
      ⟨200, some catalogDoc⟩ [] [("timestamp", .number "1559217606537")] "data" [bitcoinRecord]
      rfl rfl rfl (by decide) (by decide) (by decide)
      (by intro rec h; rw [List.mem_singleton.mp h]; decide)).1⟩

/-! ## Claims on rendering -/

theorem updateTrayLoop_eq {F : Type} (lib : NumLib F)
    (fetch : Nat → Token → Option Token × Option String) (l : List Token) :
    ∀ (i : Nat) (title : String),
      updateTrayLoop lib fetch i l title = title ++ concatAll (specSegments lib fetch i l) := by
  induction l with
  | nil => intro i title; simp [updateTrayLoop, specSegments, concatAll]
  | cons token rest ih =>
    intro i title
    rcases hf : fetch i token with ⟨u, err⟩
    cases err with
    | some e =>
      simp only [updateTrayLoop, hf, specSegments, specSegment, concatAll, List.foldr_cons, ih,
        String.append_assoc]
    | none =>
      cases u with
      | none =>
        simp only [updateTrayLoop, hf, specSegments, specSegment, concatAll, List.foldr_cons, ih,
          String.empty_append]
      | some u =>
        simp only [updateTrayLoop, hf, specSegments, specSegment, concatAll, List.foldr_cons, ih]
        split <;> simp [String.append_assoc]

/-- C5: for every source, watch list and fetch outcome per watched token, the title
`updateTray` sets is the prefix (the source and ": ", "coincap: " for an empty source)
followed by "select coin" for an empty list and otherwise by the segments of the watched
tokens in watch-list order, each segment depending on that token and its own fetch
outcome only. -/
theorem updateTray_title {F : Type} (lib : NumLib F)
    (fetch : Nat → Token → Option Token × Option String) (blinkOnUpdate : Bool)
    (selected : List Token) (source : String) :
    updateTray lib fetch blinkOnUpdate selected source
      = (if blinkOnUpdate then [""] else []) ++ [specTitle lib fetch selected source] := by
  unfold updateTray specTitle specPrefix
  cases selected with
  | nil => by_cases h : source = "" <;> simp [h, coincapSource]
  | cons t ts =>
    simp only [updateTrayLoop_eq]
    by_cases h : source = "" <;> simp [h, coincapSource]

/-- The decimal instance on values whose binary64 form is well known: 0.1 is
`0x3FB999999999999A`, 5e-324 is the least subnormal, 2.675 lies below its decimal text,
0.0625 and 0.5 are ties, 1e22 is exact, and texts past the largest finite value
overflow. -/
theorem binary64_examples :
    parseFloat64 "0.1" = .fin false 0x1999999999999A (-56) ∧
    parseFloat64 "5e-324" = .fin false 1 (-1074) ∧
    parseFloat64 "2.4e-324" = .fin false 0 (-1074) ∧
    fmtFixed 2 (parseFloat64 "2.675") = "2.67" ∧
    fmtFixed 3 (parseFloat64 "0.0625") = "0.062" ∧
    fmtFixed 0 (parseFloat64 "0.5") = "0" ∧
    fmtFixed 3 (parseFloat64 "1e22") = "10000000000000000000000.000" ∧
    fmtFixed 2 (parseFloat64 "-1.4691508362430571") = "-1.47" ∧
    fmtFixed 3 (parseFloat64 "7791.7934691770748761") = "7791.793" ∧
    fmtFixed 3 (parseFloat64 "-0") = "-0.000" ∧
    fmtFixed 3 (parseFloat64 "") = "0.000" ∧
    parseFloat64 "1.7976931348623157e308" = .fin false 0x1FFFFFFFFFFFFF 971 ∧
    parseFloat64 "1.7976931348623159e308" = .inf false ∧
    fmtFixed 3 (parseFloat64 "1e400") = "+Inf" := by
  decide!

theorem fmt_price_example : fmtFixed 3 (parseFloat64 "1234.5678") = "1234.568" := by decide

theorem toBinary64_zero (neg : Bool) (den : Nat) : toBinary64 neg 0 den = .fin neg 0 0 := by
  simp [toBinary64]

/-- A zero or empty change percent is 0 as a float64. -/
theorem nonZero_of_zeroOrEmpty (pct : String) (h : ZeroOrEmpty pct) :
    (parseFloat64 pct).nonZero = false := by
  rcases h with h | ⟨neg, ex, h⟩
  · subst h
    decide
  · unfold parseFloat64
    rw [h]
    simp only [Nat.zero_mul]
    split <;> simp [toBinary64_zero, F64.nonZero]

/-- C6: with a non-empty source and one watched token whose fetch returns symbol `sym`,
price 1234.5678 and a change percent that is zero or empty, the title is exactly the
source, ": ", the symbol and " - 1234.568$ ": the price has three decimals and there is
no percent suffix. -/
theorem updateTray_single_price (fetch : Nat → Token → Option Token × Option String)
    (blinkOnUpdate : Bool) (token : Token) (source id sym name pct comment : String)
    (hsource : source ≠ "")
    (hfetch : fetch 0 token = (some ⟨id, sym, name, "1234.5678", pct, comment⟩, none))
    (hzero : ZeroOrEmpty pct) :
    updateTray binary64 fetch blinkOnUpdate [token] source
      = (if blinkOnUpdate then [""] else []) ++ [source ++ ": " ++ sym ++ " - 1234.568$ "] := by
  have hz := nonZero_of_zeroOrEmpty pct hzero
  unfold updateTray
  simp only [updateTrayLoop, hfetch, binary64, hz, fmt_price_example]
  simp [String.append_assoc, hsource]

theorem updateTray_single_price_witness :
    ZeroOrEmpty "0.00" ∧
    updateTray binary64
        (fun _ t => (some { t with PriceUsd := "1234.5678", ChangePercent24Hr := "0.00" }, none))
        false [⟨"bitcoin", "BTC", "Bitcoin", "", "", ""⟩] "coincap"
      = ["coincap: BTC - 1234.568$ "] :=
  ⟨Or.inr ⟨false, -2, by decide⟩,
   updateTray_single_price
    (fun _ t => (some { t with PriceUsd := "1234.5678", ChangePercent24Hr := "0.00" }, none))
    false ⟨"bitcoin", "BTC", "Bitcoin", "", "", ""⟩ "coincap" "bitcoin" "BTC" "Bitcoin" "0.00" ""
    (by decide) rfl (Or.inr ⟨false, -2, by decide⟩)⟩

/-! ## Claims on the binance change percent -/

/-- The three ways `getBinanceToken` returns. -/
theorem getBinanceToken_cases {β : Type} (env : Env β) (n : Nat) (token : Token)
    (currency : String) :
    (∃ price, getBinanceToken env n token currency
        = (some { token with PriceUsd := price, ChangePercent24Hr := "" }, none)) ∨
    getBinanceToken env n token currency = (some token, some "token not found") ∨
    (∃ e, getBinanceToken env n token currency = (none, some e)) := by
  unfold getBinanceToken
  simp only
  split
  · exact Or.inr (Or.inr ⟨_, rfl⟩)
  · split
    · exact Or.inr (Or.inl rfl)
    · split
      · exact Or.inr (Or.inr ⟨_, rfl⟩)
      · split
        · exact Or.inr (Or.inr ⟨_, rfl⟩)
        · exact Or.inl ⟨_, rfl⟩

/-- The segment rendered for a binance fetch does not depend on the change percent the
watched token carried. -/
theorem specSegment_binance_indep {β F : Type} (env : Env β) (lib : NumLib F) (n : Nat)
    (token : Token) (pct : String) :
    specSegment lib { token with ChangePercent24Hr := pct }
        (getToken env n { token with ChangePercent24Hr := pct } binanceSource)
      = specSegment lib token (getToken env n token binanceSource) := by
  unfold getToken getBinanceToken
  simp only [if_true]
  split
  · rfl
  · split
    · rfl
    · split
      · rfl
      · split
        · rfl
        · rfl

theorem specSegments_binance_indep {β F : Type} (env : Env β) (lib : NumLib F) (n : Nat)
    (f : Token → String) (l : List Token) :
    ∀ i, specSegments lib (fun i token => getToken env (n + i) token binanceSource) i
          (l.map (fun t => { t with ChangePercent24Hr := f t }))
        = specSegments lib (fun i token => getToken env (n + i) token binanceSource) i l := by
  induction l with
  | nil => intro i; rfl
  | cons t ts ih =>
    intro i
    simp only [List.map_cons, specSegments, ih, specSegment_binance_indep]

/-- C8 as stated fails: on status 400 `getToken` with source "binance" returns the token
with the change percent it carried. -/
theorem getToken_binance_returns_stale_percent :
    ¬ ∀ (env : Env String) (n : Nat) (token returned : Token),
        (getToken env n token "binance").1 = some returned →
          returned.ChangePercent24Hr = "" := by
  intro h
  have h1 := h (envStatus 400) 0
    ⟨"bitcoin", "BTC", "Bitcoin", "7791.79", "-1.46", ""⟩
    ⟨"bitcoin", "BTC", "Bitcoin", "7791.79", "-1.46", ""⟩ rfl
  revert h1
  decide

/-- C8 amended: `getToken` with source "binance" returns either the given token with the
fetched price and an empty change percent and no error, or the given token unchanged
with the error "token not found", or no token with an error; and the title `updateTray`
builds for source "binance" is the same whatever change percent the watched tokens
carried. -/
theorem getToken_binance_percent {β F : Type} (env : Env β) (lib : NumLib F) (n : Nat) :
    (∀ token : Token,
      (∃ price, getToken env n token "binance"
          = (some { token with PriceUsd := price, ChangePercent24Hr := "" }, none)) ∨
      getToken env n token "binance" = (some token, some "token not found") ∨
      (∃ e, getToken env n token "binance" = (none, some e))) ∧
    (∀ (blinkOnUpdate : Bool) (selected : List Token) (f : Token → String),
      updateTrayEnv env lib n blinkOnUpdate
          (selected.map (fun t => { t with ChangePercent24Hr := f t })) "binance"
        = updateTrayEnv env lib n blinkOnUpdate selected "binance") := by
  constructor
  · intro token
    have h := getBinanceToken_cases env n token "USDT"
    have e : getToken env n token "binance" = getBinanceToken env n token "USDT" := by
      simp [getToken, binanceSource]
    rw [e]
    exact h
  · intro blinkOnUpdate selected f
    unfold updateTrayEnv updateTray
    have hb : ("binance" : String) = binanceSource := rfl
    simp only [List.length_map, updateTrayLoop_eq, hb, specSegments_binance_indep]

/-! ## The toggle step on the shared slice

The toggle step of the sequential model works on the visible elements only.  On the
shared slice, with further cells behind the length, it has the same visible result. -/

theorem deleteAt_length (arr : List Token) (len i : Nat) (s' : Slice)
    (h : deleteAt ⟨arr, len⟩ i = some s') :
    s'.arr.length = arr.length ∧ s'.len + 1 = len ∧ len ≤ arr.length := by
  unfold deleteAt at h
  split at h
  · rename_i hc
    have e := (Option.some.inj h).symm
    subst e
    simp only [List.length_append, List.length_take, List.length_drop] at hc ⊢
    omega
  · exact absurd h (by simp)

theorem deleteAt_extra (arr extra : List Token) (len i : Nat) (hlen : len ≤ arr.length) :
    deleteAt ⟨arr ++ extra, len⟩ i
      = (deleteAt ⟨arr, len⟩ i).map (fun s => (⟨s.arr ++ extra, s.len⟩ : Slice)) := by
  unfold deleteAt
  by_cases h : i + 1 ≤ len
  · have h1 : len ≤ (arr ++ extra).length := by simp; omega
    have t1 : (arr ++ extra).take i = arr.take i :=
      List.take_append_of_le_length (by omega)
    have t2 : (arr ++ extra).drop (i + 1) = arr.drop (i + 1) ++ extra :=
      List.drop_append_of_le_length (by omega)
    have t3 : (arr.drop (i + 1) ++ extra).take (len - (i + 1))
        = (arr.drop (i + 1)).take (len - (i + 1)) :=
      List.take_append_of_le_length (by simp; omega)
    have t4 : (arr ++ extra).drop (len - 1) = arr.drop (len - 1) ++ extra :=
      List.drop_append_of_le_length (by omega)
    simp only [h, h1, hlen, and_self, if_true, Option.map_some', t1, t2, t3, t4,
      List.append_assoc]
  · simp [h]

theorem rangeSelected_extra (c : Token) (extra : List Token) :
    ∀ (k i : Nat) (arr : List Token) (len : Nat) (found : Bool),
      i + k ≤ arr.length → len ≤ arr.length →
      rangeSelected c k i ⟨arr ++ extra, len⟩ found
        = (rangeSelected c k i ⟨arr, len⟩ found).map
            (fun p => ((⟨p.1.arr ++ extra, p.1.len⟩ : Slice), p.2)) := by
  intro k
  induction k with
  | zero => intro i arr len found _ _; rfl
  | succ k ih =>
    intro i arr len found hik hlen
    have hi : i < arr.length := by omega
    have g1 : (arr ++ extra)[i]? = some arr[i] := by
      rw [List.getElem?_append_left hi]
      exact List.getElem?_eq_getElem hi
    have g2 : arr[i]? = some arr[i] := List.getElem?_eq_getElem hi
    simp only [rangeSelected, g1, g2]
    by_cases hv : arr[i].ID = c.ID
    · simp only [hv, if_true]
      rw [deleteAt_extra arr extra len i hlen]
      rcases hd : deleteAt ⟨arr, len⟩ i with _ | s'
      · rfl
      · obtain ⟨l1, l2, l3⟩ := deleteAt_length arr len i s' hd
        simp only [Option.map_some']
        exact ih (i + 1) s'.arr s'.len true (by omega) (by omega)
    · simp only [hv, if_false]
      exact ih (i + 1) arr len found (by omega) hlen

theorem rangeSelected_length (c : Token) :
    ∀ (k i : Nat) (arr : List Token) (len : Nat) (found : Bool) (s : Slice) (f : Bool),
      len ≤ arr.length → rangeSelected c k i ⟨arr, len⟩ found = some (s, f) →
      s.len ≤ s.arr.length := by
  intro k
  induction k with
  | zero =>
    intro i arr len found s f hlen h
    have e := (Option.some.inj h).symm
    have e1 : s = ⟨arr, len⟩ := congrArg Prod.fst e
    subst e1
    exact hlen
  | succ k ih =>
    intro i arr len found s f hlen h
    simp only [rangeSelected] at h
    split at h
    · exact absurd h (by simp)
    · split at h
      · split at h
        · exact absurd h (by simp)
        · rename_i s' hd
          obtain ⟨l1, l2, l3⟩ := deleteAt_length arr len i s' hd
          exact ih (i + 1) s'.arr s'.len true s f (by omega) h
      · exact ih (i + 1) arr len found s f hlen h

/-- The toggle step on the shared slice shows, through the new header, what the toggle
step of the sequential model gives on the visible elements. -/
theorem toggleShared_visible (grow : Nat → Nat) (heap : List Backing) (sel : Header)
    (b : Backing) (c : Token) (hb : heap[sel.arr]? = some b) (hlen : sel.len ≤ b.cells.length) :
    (toggleShared grow heap sel c).map (fun p => visible p.1 p.2)
      = toggle (visible heap sel) c := by
  have hv : visible heap sel = b.cells.take sel.len := by simp [visible, hb]
  have hl : (b.cells.take sel.len).length = sel.len := by
    simp [List.length_take]; omega
  have hsplit : b.cells = b.cells.take sel.len ++ b.cells.drop sel.len :=
    (List.take_append_drop _ _).symm
  have hr := rangeSelected_extra c (b.cells.drop sel.len) sel.len 0 (b.cells.take sel.len)
    sel.len false (by omega) (by omega)
  rw [← hsplit] at hr
  have harr : sel.arr < heap.length := by
    by_contra hge
    rw [List.getElem?_eq_none (by omega)] at hb
    exact absurd hb (by simp)
  unfold toggleShared toggle
  rw [hv, hl]
  simp only [hb, hr]
  rcases hp : rangeSelected c sel.len 0 ⟨b.cells.take sel.len, sel.len⟩ false with _ | ⟨s, f⟩
  · rfl
  · have hsl := rangeSelected_length c sel.len 0 (b.cells.take sel.len) sel.len false s f
      (by omega) hp
    have tk : (s.arr ++ b.cells.drop sel.len).take s.len = s.arr.take s.len :=
      List.take_append_of_le_length hsl
    simp only [Option.map_some']
    cases f with
    | true =>
      simp [visible, harr, Slice.toList, tk]
    | false =>
      have tk1 : ((s.arr.take s.len ++ [c]) ++ (s.arr ++ b.cells.drop sel.len).drop (s.len + 1)).take
          (s.len + 1) = s.arr.take s.len ++ [c] := by
        have e : s.len + 1 = (s.arr.take s.len ++ [c]).length := by
          simp [List.length_take]; omega
        rw [e, List.take_left']
        rfl
      have tk2 : (s.arr.take s.len ++ [c]).take (s.len + 1) = s.arr.take s.len ++ [c] := by
        apply List.take_of_length_le
        simp [List.length_take]
      have tk3 : (s.arr.take s.len ++ c :: (s.arr ++ b.cells.drop sel.len).drop (s.len + 1)).take
          (s.len + 1) = s.arr.take s.len ++ [c] := by
        simpa using tk1
      by_cases hcap : s.len < b.cap
      · simp [visible, harr, Slice.toList, tk, tk3, hcap]
      · simp [visible, Slice.toList, tk, tk2, hcap]

/-! ## Claims on the two goroutines -/

theorem visible_take_succ (heap : List Backing) (h : Header) (b : Backing) (i : Nat)
    (token : Token) (hb : heap[h.arr]? = some b) (hi : i < h.len)
    (ht : b.cells[i]? = some token) :
    (visible heap h).take (i + 1) = (visible heap h).take i ++ [token] := by
  have hv : visible heap h = b.cells.take h.len := by simp [visible, hb]
  rw [hv, List.take_succ]
  have : (List.take h.len b.cells)[i]? = some token := by
    rw [List.getElem?_take_of_lt hi, ht]
  rw [this]
  rfl

theorem visible_take_len (heap : List Backing) (h : Header) :
    (visible heap h).take h.len = visible heap h := by
  unfold visible
  split
  · simp [List.take_take]
  · simp

theorem Run.read_inv (heap : List Backing) (h : Header) (r r' : Run)
    (hr : r.read heap = some r') (hsel : r.selected = h)
    (hf : r.frame = (visible heap h).take r.idx) :
    r'.selected = h ∧ r'.source = r.source ∧ r'.idx ≤ r'.selected.len ∧
      r'.frame = (visible heap h).take r'.idx := by
  unfold Run.read at hr
  split at hr
  · rename_i hlt
    split at hr
    · exact absurd hr (by simp)
    · rename_i b hb
      split at hr
      · exact absurd hr (by simp)
      · rename_i token ht
        have e : r' = { r with idx := r.idx + 1, frame := r.frame ++ [token] } :=
          (Option.some.inj hr).symm
        subst e
        refine ⟨hsel, rfl, hlt, ?_⟩
        simp only
        rw [hf, ← hsel]
        rw [← hsel] at hf
        exact (visible_take_succ heap r.selected b r.idx token hb hlt ht).symm
  · exact absurd hr (by simp)

/-- The value of `selected` after a batch is its value before the batch or one of the
values listed for the passes. -/
theorem toggleAllShared_mem (grow : Nat → Nat) (cs : List Token) :
    ∀ (heap : List Backing) (sel : Header) (heap' : List Backing) (sel' : Header)
      (seen : List (List Token)),
      toggleAllShared grow heap sel cs = some (heap', sel', seen) →
      visible heap' sel' ∈ visible heap sel :: seen := by
  induction cs with
  | nil =>
    intro heap sel heap' sel' seen h
    simp only [toggleAllShared, Option.some.injEq, Prod.mk.injEq] at h
    obtain ⟨h1, h2, _⟩ := h
    rw [h1, h2]
    exact List.mem_cons_self _ _
  | cons c cs ih =>
    intro heap sel heap' sel' seen h
    simp only [toggleAllShared] at h
    split at h
    · exact absurd h (by simp)
    · rename_i h1 s1 _
      split at h
      · exact absurd h (by simp)
      · rename_i h2 s2 seen2 hrec
        simp only [Option.some.injEq, Prod.mk.injEq] at h
        obtain ⟨e1, e2, e3⟩ := h
        subst e1 e2 e3
        exact List.mem_cons_of_mem _ (ih h1 s1 h2 s2 seen2 hrec)

theorem step_preserves (grow : Nat → Nat) (s s' : Sys) (a : Action)
    (hstep : step grow s a = some s') (hinv : EventInv s) : EventInv s' := by
  obtain ⟨h1, h2, h3⟩ := hinv
  cases a with
  | receive e =>
    cases e with
    | clicked cs =>
      simp only [step] at hstep
      split at hstep
      · exact absurd hstep (by simp)
      · split at hstep
        · exact absurd hstep (by simp)
        · rename_i heap sel seen _
          have e := (Option.some.inj hstep).symm
          subst e
          rename_i htog
          refine ⟨?_, ?_, ?_⟩
          · intro f hf
            simp only [List.mem_append]
            exact Or.inl (h1 f hf)
          · simp only [List.mem_append]
            rcases List.mem_cons.mp
              (toggleAllShared_mem grow cs s.heap s.selected heap sel seen htog) with hm | hm
            · left
              rw [hm]
              exact h2
            · right
              exact List.mem_map.mpr ⟨_, hm, rfl⟩
          · intro r hr
            have e := (Option.some.inj hr).symm
            subst e
            simp
    | source name =>
      simp only [step] at hstep
      split at hstep
      · exact absurd hstep (by simp)
      · have e := (Option.some.inj hstep).symm
        subst e
        refine ⟨?_, ?_, ?_⟩
        · intro f hf
          simp only [List.mem_append]
          exact Or.inl (h1 f hf)
        · simp
        · intro r hr
          have e := (Option.some.inj hr).symm
          subst e
          simp
  | eventRead =>
    simp only [step] at hstep
    split at hstep
    · exact absurd hstep (by simp)
    · rename_i r hr
      split at hstep
      · exact absurd hstep (by simp)
      · rename_i r' hread
        have e := (Option.some.inj hstep).symm
        subst e
        obtain ⟨hs, hsrc, _, hf⟩ := h3 r hr
        refine ⟨h1, h2, ?_⟩
        intro r2 hr2
        have e2 : r2 = r' := (Option.some.inj hr2).symm
        subst e2
        have := Run.read_inv s.heap s.selected r r2 hread hs hf
        exact ⟨this.1, this.2.1.trans hsrc, this.2.2.1, this.2.2.2⟩
  | eventSetTitle =>
    simp only [step] at hstep
    split at hstep
    · exact absurd hstep (by simp)
    · rename_i r hr
      split at hstep
      · rename_i hidx
        have e := (Option.some.inj hstep).symm
        subst e
        obtain ⟨hs, hsrc, _, hf⟩ := h3 r hr
        refine ⟨?_, h2, ?_⟩
        · intro f hf'
          rcases List.mem_append.mp hf' with hf' | hf'
          · exact h1 f hf'
          · rw [List.mem_singleton] at hf'
            rw [hf', hf, hidx, hs, visible_take_len, hsrc]
            exact h2
        · intro r2 hr2
          exact absurd hr2 (by simp)
      · exact absurd hstep (by simp)
  | tickStart =>
    simp only [step] at hstep
    split at hstep
    · exact absurd hstep (by simp)
    · have e := (Option.some.inj hstep).symm
      subst e
      exact ⟨h1, h2, h3⟩
  | tickRead =>
    simp only [step] at hstep
    split at hstep
    · exact absurd hstep (by simp)
    · split at hstep
      · exact absurd hstep (by simp)
      · have e := (Option.some.inj hstep).symm
        subst e
        exact ⟨h1, h2, h3⟩
  | tickSetTitle =>
    simp only [step] at hstep
    split at hstep
    · exact absurd hstep (by simp)
    · split at hstep
      · have e := (Option.some.inj hstep).symm
        subst e
        exact ⟨h1, h2, h3⟩
      · exact absurd hstep (by simp)

theorem run_preserves (grow : Nat → Nat) (acts : List Action) :
    ∀ s s' : Sys, run grow s acts = some s' → EventInv s → EventInv s' := by
  induction acts with
  | nil =>
    intro s s' h hinv
    have e : s' = s := (Option.some.inj h).symm
    subst e
    exact hinv
  | cons a as ih =>
    intro s s' h hinv
    simp only [run] at h
    split at h
    · exact absurd h (by simp)
    · rename_i s1 hs1
      exact ih s1 s' h (step_preserves grow s s1 a hs1 hinv)

theorem init_inv : EventInv Sys.init := by
  refine ⟨?_, ?_, ?_⟩
  · intro f hf; exact absurd hf (by simp [Sys.init])
  · simp [Sys.init, visible]
  · intro r hr; exact absurd hr (by simp [Sys.init])

/-- The event goroutine, the sibling of the ticker: in every state the system reaches,
every title a run of the event goroutine has set was built from one value of the pair of
`selected` and `source`, and a run of the event goroutine in progress works on the
current `selected` and `source` and has read the first elements of the current watch
list. -/
theorem event_frames_in_history (grow : Nat → Nat) (acts : List Action) (s : Sys)
    (hrun : run grow Sys.init acts = some s) :
    (∀ f ∈ s.eventFrames, f ∈ s.history) ∧
    (∀ r, s.eventRun = some r →
      r.selected = s.selected ∧ r.source = s.source ∧
        r.frame = (visible s.heap s.selected).take r.idx) := by
  obtain ⟨h1, _, h3⟩ := run_preserves grow acts Sys.init s hrun init_inv
  refine ⟨h1, ?_⟩
  intro r hr
  obtain ⟨a, b, _, d⟩ := h3 r hr
  exact ⟨a, b, d⟩

/-- C10 (the code departs from the claim): the ticker goroutine calls `updateTray` with
nothing ordering it against the event goroutine.  After the first fifteen steps of
`raceTrace` a run of the event goroutine and a run of the ticker goroutine are in
progress at the same time, and when `raceTrace` is over the periodic run has built its
title from BTC, XRP, XRP, which is no value the watch list ever had. -/
theorem ticker_run_overlaps_and_mixes :
    ((run growSmall Sys.init (raceTrace.take 15)).map
        (fun s => (s.eventRun.isSome, s.tickRun.isSome)) = some (true, true)) ∧
    run growSmall Sys.init raceTrace = some raceFinal ∧
    raceFinal.tickFrames = [([tA, tC, tC], "")] ∧
    ([tA, tC, tC], "") ∉ raceFinal.history := by
  refine ⟨by decide, by decide, rfl, by decide⟩

end CryptoTray
